import Mathlib

/-!
Verification of `gftools` `Lib/gftools/fix.py` — a shallow embedding of the
single-font fix rules, the family vertical-metrics harmonization, the COLR
repair dispatcher and the `FontFixer` pipeline, together with theorems about
the behaviour of those functions.

Machine integers of the source are modelled as `Int`/`Nat`; Python floats that
participate in the control flow (fvar axis defaults, italic angles, average
widths) are modelled as `Rat`.  Fallible code paths (KeyError / IndexError /
ValueError / NameError / raised exceptions) are modelled with `Except String`.
-/

/-- Truncation toward zero of a rational, the behaviour of Python's `int()`
on a float.  `ratFloor` is the mathematical floor, computed on the reduced
numerator/denominator pair. -/
def ratFloor (q : Rat) : Int := Int.fdiv q.num (q.den : Int)

/-- Python `int(v)`: truncation toward zero. -/
def pyTrunc (q : Rat) : Int := if 0 ≤ q then ratFloor q else -(ratFloor (-q))

/-- fontTools `otRound(v) = floor(v + 0.5)` applied to the exact quotient
`a / b` (the Python float division `sum(widths) / len(widths)` modelled as
an exact rational): `floor(a / b + 1 / 2) = fdiv (2 * a + b) (2 * b)`. -/
def otRoundDiv (a : Int) (b : Nat) : Int := Int.fdiv (2 * a + b) (2 * b)

/-- Tokenizer worker: walk the characters, accumulating the current token
(reversed) and emitting it at whitespace boundaries. -/
def tokensAux : List Char → List Char → List String
  | [], acc => if acc.isEmpty then [] else [acc.reverse.asString]
  | c :: rest, acc =>
      if c.isWhitespace then
        if acc.isEmpty then tokensAux rest []
        else acc.reverse.asString :: tokensAux rest []
      else tokensAux rest (c :: acc)

/-- Python `str.split()` with no argument: split on whitespace runs and drop
empty pieces. -/
def tokensOf (s : String) : List String := tokensAux s.data []

/-- Whether the first list is an initial segment of the second. -/
def isPrefixList : List Char → List Char → Bool
  | [], _ => true
  | _ :: _, [] => false
  | p :: ps, h :: hs => p == h && isPrefixList ps hs

/-- Whether `pat` occurs as a contiguous sublist. -/
def containsList (pat : List Char) : List Char → Bool
  | [] => pat.isEmpty
  | h :: hs => isPrefixList pat (h :: hs) || containsList pat hs

/-- Python `sub in s` substring membership. -/
def strContains (s pat : String) : Bool := containsList pat.data s.data

/-- OS/2 `panose` classification sub-record (the two fields the fixer touches). -/
structure Panose where
  bFamilyType : Nat
  bProportion : Nat
deriving DecidableEq

/-- The OS/2 table fields used by the fix rules. -/
structure OS2Table where
  version : Int
  fsType : Int
  fsSelection : Nat
  usWeightClass : Int
  usWinAscent : Int
  usWinDescent : Int
  sTypoAscender : Int
  sTypoDescender : Int
  sTypoLineGap : Int
  xAvgCharWidth : Int
  panose : Panose
deriving DecidableEq

/-- The head table fields used by the fix rules. -/
structure HeadTable where
  flags : Nat
  macStyle : Nat
  yMin : Int
  yMax : Int
deriving DecidableEq

/-- The hhea table fields used by the fix rules. -/
structure HheaTable where
  ascent : Int
  descent : Int
  lineGap : Int
  advanceWidthMax : Int
deriving DecidableEq

/-- The post table fields used by the fix rules. -/
structure PostTable where
  isFixedPitch : Int
  italicAngle : Rat
deriving DecidableEq

/-- One record of the name table. -/
structure NameRecord where
  nameID : Nat
  platformID : Nat
  platEncID : Nat
  langID : Nat
  string : String
deriving DecidableEq

/-- One cmap subtable: platform/encoding ids, language, and the
codepoint-to-glyph-name mapping (a Python dict, modelled as an association
list whose keys are unique). -/
structure CmapTable where
  format : Nat
  platformID : Nat
  platEncID : Nat
  language : Nat
  cmap : List (Nat × String)
deriving DecidableEq

/-- One fvar variation axis: its tag and default value. -/
structure FvarAxis where
  axisTag : String
  defaultValue : Rat
deriving DecidableEq

/-- The in-memory font model: the tables and fields consulted by the fix
rules of `fix.py`.  `styleName` is the style name string read through
`font_stylename`; `fvarAxes = none` models a font with no fvar table;
`colrVersion = none` models a font with no COLR table; `hmtx` maps glyph
names to advance widths; `glyf` maps glyph names to `numberOfContours`. -/
structure Font where
  styleName : String
  os2 : OS2Table
  head : HeadTable
  hhea : HheaTable
  post : PostTable
  name : List NameRecord
  cmap : List CmapTable
  hmtx : List (String × Int)
  glyphOrder : List String
  glyf : List (String × Int)
  fvarAxes : Option (List FvarAxis)
  maxpNumGlyphs : Nat
  colrVersion : Option Nat
  hasSVG : Bool
deriving DecidableEq

/-- Modelled from the spec: `font_stylename` (from `gftools.utils`, not part
of the source file) reads the font's style name string; the data model gives
every font "a style name string", carried here as the `styleName` field. -/
def font_stylename (f : Font) : String := f.styleName

/-- Modelled from the spec: `typo_metrics_enabled` (from `gftools.utils`, not
part of the source file) tests the OS/2 `fsSelection` "use typographic
metrics" bit (bit 7). -/
def typo_metrics_enabled (f : Font) : Bool := f.os2.fsSelection.testBit 7

/-- The fixed disallowed table set of `fix.py`. -/
def UNWANTED_TABLES : List String :=
  ["FFTM", "TTFA", "TSI0", "TSI1", "TSI2", "TSI3", "TSI5", "prop", "Debg"]

/-- `remove_tables`: computes the new list of table tags of the font.  The
tables to remove default to `UNWANTED_TABLES` when the argument is `None`
(and also, per Python truthiness, when it is an empty iterable); only tables
that are unwanted, present in the font and requested are deleted. -/
def remove_tables (fontTables : List String) (tables : Option (List String)) :
    List String :=
  let tables_to_remove :=
    match tables with
    | none => UNWANTED_TABLES
    | some ts => if ts.isEmpty then UNWANTED_TABLES else ts
  let tables_to_remove :=
    tables_to_remove.filter
      (fun t => UNWANTED_TABLES.contains t && fontTables.contains t)
  fontTables.filter (fun t => ¬ tables_to_remove.contains t)

/-- `fix_fs_type`: set OS/2 `fsType` to 0, report whether it was non-zero. -/
def fix_fs_type (f : Font) : Font × Bool :=
  let old := f.os2.fsType
  ({ f with os2 := { f.os2 with fsType := 0 } }, old != 0)

/-- The new `fsSelection` computed by `fix_fs_selection`: clear all bits of
the old value except bit 7, then set bit 0 for Italic, bit 5 for Bold,
bit 6 when neither applies. -/
def fsSelectionBits (tokens : List String) (old_selection : Nat) : Nat :=
  let fs := old_selection &&& (1 <<< 7)
  let fs := if tokens.contains "Italic" then fs ||| (1 <<< 0) else fs
  let fs := if tokens.contains "Bold" then fs ||| (1 <<< 5) else fs
  if ¬ (tokens.contains "Bold" || tokens.contains "Italic") then
    fs ||| (1 <<< 6)
  else fs

/-- `fix_fs_selection`: recompute `fsSelection` from the style tokens and
report whether it changed. -/
def fix_fs_selection (f : Font) : Font × Bool :=
  let fs := fsSelectionBits (tokensOf (font_stylename f)) f.os2.fsSelection
  ({ f with os2 := { f.os2 with fsSelection := fs } },
    f.os2.fsSelection != fs)

/-- `fix_mac_style`: recompute head `macStyle` from the style tokens
(bit 1 italic, bit 0 bold), always overwritten. -/
def fix_mac_style (f : Font) : Font × Bool :=
  let tokens := tokensOf (font_stylename f)
  let mac_style := (0 : Nat)
  let mac_style := if tokens.contains "Italic" then mac_style ||| (1 <<< 1) else mac_style
  let mac_style := if tokens.contains "Bold" then mac_style ||| (1 <<< 0) else mac_style
  ({ f with head := { f.head with macStyle := mac_style } },
    f.head.macStyle != mac_style)

/-- `fix_italic_angle`: zero post `italicAngle` for any font whose style name
does not contain the substring "Italic". -/
def fix_italic_angle (f : Font) : Font × Bool :=
  if ¬ strContains (font_stylename f) "Italic" && f.post.italicAngle != 0 then
    ({ f with post := { f.post with italicAngle := 0 } }, true)
  else
    (f, false)

/-- Modelled from the spec: the weight-name table (`_KNOWN_WEIGHTS` from
`gftools.util.google_fonts`, not part of the source file) after `fix.py`
deletes the "" key and adds Hairline = 1 and ExtraBlack = 1000; listed here
already in the iteration order produced by `sorted(..., key=len,
reverse=True)` (descending name length, insertion order on ties). -/
def WEIGHT_NAMES_SORTED : List (String × Int) :=
  [("ExtraLight", 200), ("ExtraBlack", 1000), ("ExtraBold", 800),
   ("SemiBold", 600), ("Hairline", 1), ("Regular", 400), ("Medium", 500),
   ("Light", 300), ("Black", 900), ("Thin", 100), ("Bold", 700)]

/-- The default value of the last fvar axis tagged "wght" (Python's dict
comprehension keeps the last entry for a repeated key). -/
def fvarWghtDefault (f : Font) : Option Rat :=
  match f.fvarAxes with
  | none => none
  | some axes =>
      (axes.reverse.find? (fun a => a.axisTag == "wght")).map
        (fun a => a.defaultValue)

/-- Store a new OS/2 `usWeightClass`. -/
def setWeightClass (f : Font) (w : Int) : Font :=
  { f with os2 := { f.os2 with usWeightClass := w } }

/-- `fix_weight_class`: an fvar wght-axis default (integer-truncated) takes
precedence; otherwise the first (longest-name-first) weight name occurring
among the style tokens decides; otherwise an Italic token means 400;
otherwise the unclassifiable-style `ValueError` is raised.  Returns whether
the stored value changed. -/
def fix_weight_class (f : Font) : Except String (Font × Bool) :=
  let old_weight_class := f.os2.usWeightClass
  match fvarWghtDefault f with
  | some v =>
      .ok (setWeightClass f (pyTrunc v), pyTrunc v != old_weight_class)
  | none =>
      let tokens := tokensOf (font_stylename f)
      match WEIGHT_NAMES_SORTED.find? (fun p => tokens.contains p.1) with
      | some p => .ok (setWeightClass f p.2, p.2 != old_weight_class)
      | none =>
          if tokens.contains "Italic" then
            .ok (setWeightClass f 400, (400 : Int) != old_weight_class)
          else
            .error "ValueError: Cannot determine usWeightClass"

/-- First-match lookup in an association list keyed by glyph name. -/
def lookupWidth (hmtx : List (String × Int)) (g : String) : Option Int :=
  (hmtx.find? (fun e => e.1 == g)).map (fun e => e.2)

/-- The glyph names `chr(65)` .. `chr(90)`, i.e. "A" .. "Z". -/
def azLetters : List String :=
  (List.range 26).map (fun i => String.singleton (Char.ofNat (65 + i)))

/-- Look up the widths of the given glyph names, failing with a `KeyError`
at the first missing glyph, as Python's `metrics[character]` does. -/
def lookupWidths (hmtx : List (String × Int)) :
    List String → Except String (List Int)
  | [] => .ok []
  | g :: rest =>
      match lookupWidth hmtx g with
      | none => .error "KeyError"
      | some w =>
          match lookupWidths hmtx rest with
          | .error e => .error e
          | .ok ws => .ok (w :: ws)

/-- `len(set(ws)) == 1`: the list is non-empty and all elements coincide. -/
def sameWidthOne (ws : List Int) : Bool :=
  match ws with
  | [] => false
  | w :: rest => rest.all (fun x => x == w)

/-- Advance widths of all glyphs with positive width, in table order. -/
def positiveWidths (hmtx : List (String × Int)) : List Int :=
  (hmtx.map (fun e => e.2)).filter (fun w => 0 < w)

/-- `max` of a list, with a junk value on `[]` (callers guard emptiness). -/
def maxList (l : List Int) : Int :=
  match l with
  | [] => 0
  | a :: t => t.foldl max a

/-- Step 1 of the monospace branch of `fix_isFixedPitch`: set post
`isFixedPitch` to 1 unless already set. -/
def ifpFixedFlag (f : Font) : Font × Bool :=
  if f.post.isFixedPitch == 1 then (f, false)
  else ({ f with post := { f.post with isFixedPitch := 1 } }, true)

/-- Steps 2–3 of the monospace branch of `fix_isFixedPitch`: derive the
expected panose `bProportion` from `bFamilyType` (2 → 9, 3/5 → 3, 0 → set
both fields to the 2/9 defaults) and update `bProportion` when needed. -/
def ifpPanose (f : Font) : Font × Bool :=
  let familyType := f.os2.panose.bFamilyType
  if familyType == 2 then
    if f.os2.panose.bProportion == 9 then (f, false)
    else ({ f with os2 := { f.os2 with panose := { f.os2.panose with bProportion := 9 } } }, true)
  else if familyType == 3 || familyType == 5 then
    if f.os2.panose.bProportion == 3 then (f, false)
    else ({ f with os2 := { f.os2 with panose := { f.os2.panose with bProportion := 3 } } }, true)
  else if familyType == 0 then
    ({ f with os2 := { f.os2 with panose := { bFamilyType := 2, bProportion := 9 } } }, true)
  else (f, false)

/-- `fix_isFixedPitch`.  Sampling a missing A–Z glyph raises `KeyError`;
in the monospace branch, `max()` of an empty positive-width list raises
`ValueError`, and a stale `hhea.advanceWidthMax` hits the source's
misspelled `messsages` name and raises `NameError` before the field is
updated. -/
def fix_isFixedPitch (f : Font) : Except String (Font × Bool) :=
  match lookupWidths f.hmtx azLetters with
  | .error e => .error e
  | .ok same_width =>
    if sameWidthOne same_width then
      let p1 := ifpFixedFlag f
      let p2 := ifpPanose p1.1
      let c2 := p1.2 || p2.2
      let widths := positiveWidths f.hmtx
      if widths.isEmpty then .error "ValueError: max() arg is an empty sequence"
      else
        let width_max := maxList widths
        if p2.1.hhea.advanceWidthMax == width_max then
          let avg_width := otRoundDiv widths.sum widths.length
          if avg_width == p2.1.os2.xAvgCharWidth then .ok (p2.1, c2)
          else
            (.ok ({ p2.1 with os2 := { p2.1.os2 with xAvgCharWidth := avg_width } }, true))
        else .error "NameError: name messsages is not defined"
    else
      let changed := f.post.isFixedPitch != 0 || f.os2.panose.bProportion != 0
      .ok ({ f with post := { f.post with isFixedPitch := 0 },
                    os2 := { f.os2 with panose := { f.os2.panose with bProportion := 0 } } },
           changed)

/-- The Macintosh name-record key probed by the name-pruning loops:
`getName(n, 1, 0, 0)`. -/
def macKey (n : Nat) (r : NameRecord) : Bool :=
  r.nameID == n && r.platformID == 1 && r.platEncID == 0 && r.langID == 0

/-- `name.getName(n, 1, 0, 0)`: the first matching record. -/
def getMacName (nm : List NameRecord) (n : Nat) : Option NameRecord :=
  nm.find? (macKey n)

/-- The shared loop of `drop_mac_names` / `drop_superfluous_mac_names`:
probe each nameID in turn and remove the first matching Macintosh record
(`names.remove`), accumulating whether anything was removed. -/
def dropNameIDs (nm : List NameRecord) : List Nat → List NameRecord × Bool
  | [] => (nm, false)
  | n :: rest =>
      match getMacName nm n with
      | some _ => ((dropNameIDs (nm.eraseP (macKey n)) rest).1, true)
      | none => dropNameIDs nm rest

/-- The 13 Macintosh nameIDs kept by `drop_superfluous_mac_names`. -/
def keep_ids : List Nat := [1, 2, 3, 4, 5, 6, 16, 17, 18, 20, 21, 22, 25]

/-- `drop_superfluous_mac_names`: for every nameID 0–254 outside the
allow-list, remove the first Macintosh (platform 1, encoding 0, language 0)
record. -/
def drop_superfluous_mac_names (f : Font) : Font × Bool :=
  let r := dropNameIDs f.name ((List.range 255).filter (fun n => ¬ keep_ids.contains n))
  ({ f with name := r.1 }, r.2)

/-- `drop_mac_names`: for every nameID 0–254, remove the first Macintosh
(platform 1, encoding 0, language 0) record. -/
def drop_mac_names (f : Font) : Font × Bool :=
  let r := dropNameIDs f.name (List.range 255)
  ({ f with name := r.1 }, r.2)

/-- Modelled from the spec: `get_unencoded_glyphs` (from `gftools.utils`, not
part of the source file) "finds currently-unencoded glyphs": the glyphs of
the glyph order that appear as the target of no cmap subtable entry. -/
def get_unencoded_glyphs (f : Font) : List String :=
  f.glyphOrder.filter
    (fun g => ¬ f.cmap.any (fun st => st.cmap.any (fun e => e.2 == g)))

/-- `cmap.getcmap(p, e)`: the first subtable with the given platform and
encoding ids. -/
def getcmap (tables : List CmapTable) (p e : Nat) : Option CmapTable :=
  tables.find? (fun t => t.platformID == p && t.platEncID == e)

/-- Python dict assignment `m[k] = v` on an association list with unique
keys: replace the value at `k` if present, otherwise append the entry. -/
def dictSet (m : List (Nat × String)) (k : Nat) (v : String) :
    List (Nat × String) :=
  if m.any (fun e => e.1 == k) then
    m.map (fun e => if e.1 == k then (k, v) else e)
  else m ++ [(k, v)]

/-- Apply `g` to the first subtable satisfying `p`, in place. -/
def updateFirstCmap (p : CmapTable → Bool) (g : CmapTable → CmapTable) :
    List CmapTable → List CmapTable
  | [] => []
  | t :: rest =>
      if p t then g t :: rest else t :: updateFirstCmap p g rest

/-- The UCS-2 subtable searched by `fix_pua`: the first of (3,1), (0,3),
(3,0) that exists. -/
def findUcs2 (tables : List CmapTable) : Option CmapTable :=
  match getcmap tables 3 1 with
  | some t => some t
  | none =>
      match getcmap tables 0 3 with
      | some t => some t
      | none => getcmap tables 3 0

/-- The remap loop of `fix_pua`: walk the enumerated glyph order and assign
`m[0xF0000 + glyphID] = glyph` for every unencoded glyph. -/
def puaFold (unencoded_glyphs : List String)
    (entries : List (Nat × String)) (m : List (Nat × String)) :
    List (Nat × String) :=
  entries.foldl
    (fun m p =>
      if unencoded_glyphs.contains p.2 then dictSet m (0xF0000 + p.1) p.2
      else m)
    m

/-- The mapping used to seed a synthesized UCS-4 subtable: the UCS-2
subtable's mapping when one exists, else empty. -/
def puaSeeded (f : Font) : List (Nat × String) :=
  match findUcs2 f.cmap with
  | some t => t.cmap
  | none => []

/-- The cmap table list after `fix_pua` ensures a (3,10) subtable exists
(format 12, language 0, seeded by `puaSeeded`). -/
def puaCmap1 (f : Font) : List CmapTable :=
  if (getcmap f.cmap 3 10).isSome then f.cmap
  else
    f.cmap ++ [{ format := 12, platformID := 3, platEncID := 10,
                 language := 0, cmap := puaSeeded f }]

/-- The cmap table list after `fix_pua` maps every unencoded glyph to
`0xF0000 + glyphID` inside the first (3,10) subtable. -/
def puaCmap (f : Font) : List CmapTable :=
  updateFirstCmap (fun t => t.platformID == 3 && t.platEncID == 10)
    (fun t =>
      { t with cmap :=
          puaFold (get_unencoded_glyphs f) f.glyphOrder.enum t.cmap })
    (puaCmap1 f)

/-- `fix_pua`: when unencoded glyphs exist, ensure a (3,10) UCS-4 subtable
exists, then map every unencoded glyph to codepoint `0xF0000 + glyphID`.
Returns `false` (Python `None`) when there was nothing to do. -/
def fix_pua (f : Font) : Font × Bool :=
  let unencoded_glyphs := get_unencoded_glyphs f
  if unencoded_glyphs.isEmpty then (f, false)
  else ({ f with cmap := puaCmap f }, true)

/-- Modelled from the spec: `family_bounding_box` (from `gftools.utils`, not
part of the source file) computes the min/max glyph extents across every
font in the family, returned as `(min, max)`. -/
def family_bounding_box (ttFonts : List Font) : Int × Int :=
  match ttFonts with
  | [] => (0, 0)
  | f :: rest =>
      (rest.foldl (fun a g => min a g.head.yMin) f.head.yMin,
       rest.foldl (fun a g => max a g.head.yMax) f.head.yMax)

/-- `copy_vertical_metrics`: copy the eight vertical-metric fields of
`src_font` onto `dst_font`. -/
def copy_vertical_metrics (src_font dst_font : Font) : Font :=
  { dst_font with
      os2 := { dst_font.os2 with
                 usWinAscent := src_font.os2.usWinAscent,
                 usWinDescent := src_font.os2.usWinDescent,
                 sTypoAscender := src_font.os2.sTypoAscender,
                 sTypoDescender := src_font.os2.sTypoDescender,
                 sTypoLineGap := src_font.os2.sTypoLineGap },
      hhea := { dst_font.hhea with
                  ascent := src_font.hhea.ascent,
                  descent := src_font.hhea.descent,
                  lineGap := src_font.hhea.lineGap } }

instance : Inhabited Font :=
  ⟨⟨"", ⟨0, 0, 0, 0, 0, 0, 0, 0, 0, 0, ⟨0, 0⟩⟩, ⟨0, 0, 0, 0⟩, ⟨0, 0, 0, 0⟩,
    ⟨0, 0⟩, [], [], [], [], [], none, 0, none, false⟩⟩

/-- The fully-updated source-of-truth font of `fix_vertical_metrics`: the
font styled "Regular" (else the first font), with a one-time migration of
legacy win metrics into the typo fields when bit 7 was unset, hhea mirroring
typo, and win ascent/descent set from the family bounding box. -/
def vmSrcAfter (ttFonts : List Font) : Font :=
  match ttFonts with
  | [] => default
  | f0 :: _ =>
      let src_font :=
        (ttFonts.find? (fun f => font_stylename f == "Regular")).getD f0
      let src_font :=
        if typo_metrics_enabled src_font then src_font
        else
          { src_font with os2 :=
              { src_font.os2 with
                  fsSelection := src_font.os2.fsSelection ||| (1 <<< 7),
                  sTypoAscender := src_font.os2.usWinAscent,
                  sTypoDescender := -src_font.os2.usWinDescent,
                  sTypoLineGap := 0 } }
      let src_font :=
        { src_font with hhea :=
            { src_font.hhea with
                ascent := src_font.os2.sTypoAscender,
                descent := src_font.os2.sTypoDescender,
                lineGap := src_font.os2.sTypoLineGap } }
      let bb := family_bounding_box ttFonts
      { src_font with os2 :=
          { src_font.os2 with usWinAscent := bb.2, usWinDescent := abs bb.1 } }

/-- `fix_vertical_metrics`: mutate the source-of-truth font, then enable
fsSelection bit 7 on every font and copy the source font's eight
vertical-metric fields onto it.  `none` models the `IndexError` raised by
`ttFonts[0]` on an empty family. -/
def fix_vertical_metrics (ttFonts : List Font) : Option (List Font) :=
  match ttFonts with
  | [] => none
  | _ :: _ =>
      let src_font := vmSrcAfter ttFonts
      some (ttFonts.map
        (fun f =>
          copy_vertical_metrics src_font
            { f with os2 :=
                { f.os2 with fsSelection := f.os2.fsSelection ||| (1 <<< 7) } }))

/-- `glyf_table[g].numberOfContours` as an association-list lookup. -/
def glyfContours (f : Font) (g : String) : Option Int :=
  (f.glyf.find? (fun e => e.1 == g)).map (fun e => e.2)

/-- The short-circuiting `any(glyf_table[g].numberOfContours == 0 for g in
glyph_names)`: a missing glyph raises `KeyError` only if reached before a
truthy element. -/
def anyEmptyGlyph (f : Font) : List String → Except String Bool
  | [] => .ok false
  | g :: rest =>
      match glyfContours f g with
      | none => .error "KeyError"
      | some c => if c == 0 then .ok true else anyEmptyGlyph f rest

/-- `fix_colr_v0_gid1`: no-op when the font has fewer than 2 glyphs or when
glyph index 1 already has an empty outline; otherwise delegate to the
glyph-reorder path (`_swap_empty_glyph_to_gid1`) when some glyph has an
empty outline, else to the glyph-synthesis path (`_add_empty_glyph_to_gid1`).
Both delegates rely on external nanoemoji services and are passed in as
functions. -/
def fix_colr_v0_gid1 (swapFix addFix : Font → Font) (f : Font) :
    Except String Font :=
  if f.colrVersion != some 0 then .error "AssertionError"
  else if f.maxpNumGlyphs < 2 then .ok f
  else
    match f.glyphOrder.get? 1 with
    | none => .error "IndexError"
    | some second_glyph =>
        match glyfContours f second_glyph with
        | none => .error "KeyError"
        | some n =>
            if n == 0 then .ok f
            else
              match anyEmptyGlyph f f.glyphOrder with
              | .error e => .error e
              | .ok true => .ok (swapFix f)
              | .ok false => .ok (addFix f)

/-- `fix_colr_v1_add_svg`: no-op when an "SVG " table is present; otherwise
run the external `maximum_color` rasterizer (passed in as a function) and
fail when its output still lacks an "SVG " table. -/
def fix_colr_v1_add_svg (maximum_color : Font → Font) (f : Font) :
    Except String Font :=
  if f.hasSVG then .ok f
  else
    let fixed_ttfont := maximum_color f
    if fixed_ttfont.hasSVG then .ok fixed_ttfont
    else .error "AssertionError: SVG table is missing"

/-- `fix_colr_font`: dispatch on the COLR table version — 0 to the gid-1
repair, 1 to the SVG generation, anything else is a fatal
`NotImplementedError`; a font with no COLR table fails the entry assert. -/
def fix_colr_font (maximum_color swapFix addFix : Font → Font) (f : Font) :
    Except String Font :=
  match f.colrVersion with
  | none => .error "AssertionError: Not a COLR font"
  | some 0 => fix_colr_v0_gid1 swapFix addFix f
  | some 1 => fix_colr_v1_add_svg maximum_color f
  | some _ => .error "NotImplementedError: COLR version not supported"

/-- The dynamic shape of a fix-rule return value seen by `FontFixer.fix`:
Python `None`, a bare boolean, or a `(changed, messages)` pair. -/
inductive RuleRet where
  | retNone : RuleRet
  | retBool : Bool → RuleRet
  | retTup : Bool → List String → RuleRet
deriving DecidableEq

/-- The truthiness of a rule's change result (`None` is falsy; for a pair
the first component is taken). -/
def RuleRet.changedFlag : RuleRet → Bool
  | .retNone => false
  | .retBool b => b
  | .retTup b _ => b

/-- The messages a rule result contributes (only the pair shape carries
messages into `self.messages`). -/
def RuleRet.msgs : RuleRet → List String
  | .retNone => []
  | .retBool _ => []
  | .retTup _ m => m

/-- A fix rule as applied by the pipeline: it mutates the bound font and
returns a change report. -/
def FixRule : Type := Font → Font × RuleRet

/-- The state of a `FontFixer`: the bound font, the original path, the
accumulated save flag and messages. -/
structure FontFixer where
  font : Font
  path : String
  saveit : Bool
  messages : List String
deriving DecidableEq

/-- `FontFixer.fix`: apply each rule in order to the bound font; a truthy
change result sets the save flag; pair-shaped results extend the message
log. -/
def FontFixer.fix : FontFixer → List FixRule → FontFixer
  | fx, [] => fx
  | fx, r :: rest =>
      let rv := r fx.font
      let fx :=
        { fx with font := rv.1,
                  messages := fx.messages ++ rv.2.msgs,
                  saveit := if rv.2.changedFlag then true else fx.saveit }
      FontFixer.fix fx rest

/-- The change flags the rules report during a run, in application order. -/
def fixResults (font : Font) : List FixRule → List Bool
  | [] => []
  | r :: rest => (r font).2.changedFlag :: fixResults (r font).1 rest

/-- `FontFixer.__del__`, projected to its persistence effect: when the save
flag is set, the bound font is written to the original path with a ".fix"
suffix; otherwise nothing is written. -/
def FontFixer.teardown (fx : FontFixer) : Option (String × Font) :=
  if fx.saveit then some (fx.path ++ ".fix", fx.font) else none

/-- The set of tables `remove_tables` treats as requested: the argument
itself, defaulting to `UNWANTED_TABLES` when no list (or an empty list) is
given. -/
def requestedTables (tables : Option (List String)) : List String :=
  match tables with
  | none => UNWANTED_TABLES
  | some ts => if ts.isEmpty then UNWANTED_TABLES else ts

/-- The weight class `fix_weight_class` will store, or the classification
error: the branch structure of the source, separated from the field
update. -/
def weightTarget (f : Font) : Except String Int :=
  match fvarWghtDefault f with
  | some v => .ok (pyTrunc v)
  | none =>
      let tokens := tokensOf (font_stylename f)
      match WEIGHT_NAMES_SORTED.find? (fun p => tokens.contains p.1) with
      | some p => .ok p.2
      | none =>
          if tokens.contains "Italic" then .ok 400
          else .error "ValueError: Cannot determine usWeightClass"

/-- The eight vertical-metric fields of a font, as one list. -/
def vmsOf (f : Font) : List Int :=
  [f.os2.usWinAscent, f.os2.usWinDescent, f.os2.sTypoAscender,
   f.os2.sTypoDescender, f.os2.sTypoLineGap, f.hhea.ascent, f.hhea.descent,
   f.hhea.lineGap]

/-- At most one Macintosh (platform 1, encoding 0, language 0) name record
per nameID. -/
def noDupMacNames (nm : List NameRecord) : Prop :=
  ∀ n : Nat, nm.countP (macKey n) ≤ 1

/-- No cmap subtable entry sits at a Supplementary PUA-A codepoint
(`0xF0000` and above). -/
def cmapKeysBelowPUA (f : Font) : Prop :=
  ∀ st ∈ f.cmap, ∀ e ∈ st.cmap, e.1 < 0xF0000

/-- A neutral base font used by the concrete witnesses below. -/
def baseFont : Font := default

/-- A font carrying two identical Macintosh name records for nameID 7:
the name-pruning loops remove only one per call. -/
def dupMacFont : Font :=
  { baseFont with name := [⟨7, 1, 0, 0, "x"⟩, ⟨7, 1, 0, 0, "x"⟩] }

/-- A static font styled "Black". -/
def blackFont : Font := { baseFont with styleName := "Black" }

/-- A static font styled "ExtraBold Italic". -/
def ebiFont : Font := { baseFont with styleName := "ExtraBold Italic" }

/-- A static font styled "Bold Italic" with fsSelection bits 6 and 7 set. -/
def boldItalicFont : Font :=
  { baseFont with styleName := "Bold Italic",
                  os2 := { baseFont.os2 with fsSelection := 192 } }

/-- A variable font with a wght axis defaulting to 550, styled with an
unclassifiable style name. -/
def vfFont : Font :=
  { baseFont with styleName := "UnknownStyle",
                  fvarAxes := some [⟨"wght", 550⟩] }

/-- Monospace metrics: every uppercase glyph A–Z with advance width 600. -/
def monoHmtx : List (String × Int) := azLetters.map (fun g => (g, (600 : Int)))

/-- A monospace font whose `hhea.advanceWidthMax` (500) disagrees with the
maximum width (600): the input on which `fix_isFixedPitch` hits the
misspelled `messsages` name. -/
def monoBugFont : Font :=
  { baseFont with hmtx := monoHmtx,
                  hhea := { baseFont.hhea with advanceWidthMax := 500 } }

/-- A monospace font whose summary fields are consistent. -/
def monoOkFont : Font :=
  { baseFont with hmtx := monoHmtx,
                  hhea := { baseFont.hhea with advanceWidthMax := 600 } }

/-- Three fonts of one family with differing win metrics and extents. -/
def vmFontA : Font :=
  { baseFont with styleName := "Bold",
                  os2 := { baseFont.os2 with usWinAscent := 900 },
                  head := { baseFont.head with yMin := -200, yMax := 950 } }

/-- The "Regular" member of the witness family (the source of truth). -/
def vmFontB : Font :=
  { baseFont with styleName := "Regular",
                  os2 := { baseFont.os2 with usWinAscent := 800,
                                             usWinDescent := 150 },
                  head := { baseFont.head with yMin := -250, yMax := 900 } }

/-- The third member of the witness family. -/
def vmFontC : Font :=
  { baseFont with styleName := "Light",
                  os2 := { baseFont.os2 with usWinAscent := 700 },
                  head := { baseFont.head with yMin := -100, yMax := 1000 } }

/-- A version-0 COLR font with a single glyph. -/
def colr0Font : Font := { baseFont with colrVersion := some 0, maxpNumGlyphs := 1 }

/-- A version-1 COLR font without an "SVG " table. -/
def colr1Font : Font := { baseFont with colrVersion := some 1 }

/-- A name table holding Macintosh records for nameIDs 1, 2, 15 and 19,
plus a Windows record and out-of-scope Macintosh records (nameID 300,
nonzero language, nonzero encoding). -/
def pruneFont : Font :=
  { baseFont with name :=
      [⟨1, 1, 0, 0, "Fam"⟩, ⟨2, 1, 0, 0, "Reg"⟩, ⟨15, 1, 0, 0, "Sample"⟩,
       ⟨19, 1, 0, 0, "Sample2"⟩, ⟨1, 3, 1, 1033, "Fam"⟩, ⟨300, 1, 0, 0, "hi"⟩,
       ⟨7, 1, 0, 7, "lang"⟩, ⟨7, 1, 1, 0, "enc"⟩] }

/-- The three-font witness family of the vertical-metrics claim. -/
def vmWitnessFamily : List Font := [vmFontA, vmFontB, vmFontC]

/-- The witness family after harmonization. -/
def vmWitnessOut : List Font := (fix_vertical_metrics vmWitnessFamily).getD []

/-! ## Theorems -/

theorem remove_tables_as_filter (fontTables : List String)
    (tables : Option (List String)) :
    remove_tables fontTables tables =
      fontTables.filter
        (fun t => ¬ ((requestedTables tables).filter
            (fun u => UNWANTED_TABLES.contains u && fontTables.contains u)).contains t) :=
  rfl

theorem mem_remove_tables (fontTables : List String)
    (tables : Option (List String)) (t : String) :
    t ∈ remove_tables fontTables tables ↔
      t ∈ fontTables ∧
        ¬ (t ∈ UNWANTED_TABLES ∧ t ∈ requestedTables tables) := by
  rw [remove_tables_as_filter]
  simp only [List.mem_filter, List.contains, decide_eq_true_eq, List.elem_iff,
    List.mem_filter, Bool.and_eq_true]
  constructor
  · rintro ⟨hf, hn⟩
    exact ⟨hf, fun ⟨hu, hr⟩ => hn ⟨hr, hu, hf⟩⟩
  · rintro ⟨hf, hn⟩
    exact ⟨hf, fun ⟨hr, hu, _⟩ => hn ⟨hu, hr⟩⟩

/-- Claim C8 (corrected, as stated): the original claim's characterization of
`remove_tables` fails when an explicitly-requested empty table set is passed:
Python truthiness makes `remove_tables` fall back to the full disallowed set,
so the "FFTM" table is deleted even though the requested set does not contain
it. -/
theorem remove_tables_empty_request_counterexample :
    remove_tables ["FFTM"] (some []) = [] ∧
      ("FFTM" : String) ∉ ([] : List String) ∧
      ("FFTM" : String) ∈ (["FFTM"] : List String) ∧
      ("FFTM" : String) ∈ UNWANTED_TABLES := by
  refine ⟨rfl, by simp, by simp, by simp [UNWANTED_TABLES]⟩

/-- Claim C8 (amended): `remove_tables` deletes exactly the intersection of
the fixed disallowed set, the tables present in the font and the requested
set, where the requested set defaults to the full disallowed set when no set
— or an empty set — is requested; tables outside the disallowed set are never
removed even if requested, and requesting the removal of absent tables
leaves the font unchanged. -/
theorem remove_tables_spec (fontTables : List String)
    (tables : Option (List String)) :
    (∀ t, t ∈ remove_tables fontTables tables ↔
        t ∈ fontTables ∧
          ¬ (t ∈ UNWANTED_TABLES ∧ t ∈ requestedTables tables)) ∧
      ((∀ u ∈ UNWANTED_TABLES, u ∈ fontTables → u ∉ requestedTables tables) →
        remove_tables fontTables tables = fontTables) := by
  refine ⟨fun t => mem_remove_tables fontTables tables t, fun h => ?_⟩
  rw [remove_tables_as_filter]
  rw [List.filter_eq_self]
  intro a ha
  simp only [List.contains, decide_eq_true_eq, List.elem_iff, List.mem_filter,
    Bool.and_eq_true]
  rintro ⟨hr, hu, hf⟩
  exact h a hu hf hr

/-- Witness for C8: on a font containing only "glyf" with "FFTM" requested,
nothing is deleted. -/
theorem remove_tables_spec_witness :
    remove_tables ["glyf"] (some ["FFTM"]) = ["glyf"] :=
  (remove_tables_spec ["glyf"] (some ["FFTM"])).2 (by decide)

/-- Claim C6: after `fix` runs, the save flag equals the previously
accumulated flag OR-ed with the change results of all applied rules, and
teardown writes the bound font to the original path with a ".fix" suffix
exactly when that flag is set. -/
theorem FontFixer_save_iff_changed (fx : FontFixer) (fixes : List FixRule) :
    (FontFixer.fix fx fixes).saveit =
        (fx.saveit || (fixResults fx.font fixes).any id) ∧
      (FontFixer.fix fx fixes).teardown =
        (if fx.saveit || (fixResults fx.font fixes).any id then
          some (fx.path ++ ".fix", (FontFixer.fix fx fixes).font)
        else none) := by
  have key : ∀ (fixes : List FixRule) (fx : FontFixer),
      (FontFixer.fix fx fixes).saveit =
          (fx.saveit || (fixResults fx.font fixes).any id) ∧
        (FontFixer.fix fx fixes).path = fx.path := by
    intro fixes
    induction fixes with
    | nil => intro fx; simp [FontFixer.fix, fixResults]
    | cons r rest ih =>
        intro fx
        simp only [FontFixer.fix]
        constructor
        · rw [(ih _).1]
          cases hc : (r fx.font).2.changedFlag <;>
            simp [fixResults, hc, Bool.or_assoc]
        · rw [(ih _).2]
  rcases key fixes fx with ⟨h1, h2⟩
  refine ⟨h1, ?_⟩
  simp only [FontFixer.teardown, h1, h2]

/-- Claim C7: `fix_colr_font` dispatches on the COLR version: version 0 is a
no-op for fonts with fewer than two glyphs or an already-empty glyph at
index 1; version 1 is a no-op when an "SVG " table exists and fails fatally
when the rasterizer output lacks one; any other version fails fatally. -/
theorem fix_colr_font_spec (mc swapFix addFix : Font → Font) (f : Font) :
    (f.colrVersion = some 0 → f.maxpNumGlyphs < 2 →
        fix_colr_font mc swapFix addFix f = .ok f) ∧
      (∀ g, f.colrVersion = some 0 → 2 ≤ f.maxpNumGlyphs →
        f.glyphOrder[1]? = some g → glyfContours f g = some 0 →
        fix_colr_font mc swapFix addFix f = .ok f) ∧
      (f.colrVersion = some 1 → f.hasSVG = true →
        fix_colr_font mc swapFix addFix f = .ok f) ∧
      (f.colrVersion = some 1 → f.hasSVG = false → (mc f).hasSVG = false →
        fix_colr_font mc swapFix addFix f =
          .error "AssertionError: SVG table is missing") ∧
      (∀ v, f.colrVersion = some v → v ≠ 0 → v ≠ 1 →
        ∃ e, fix_colr_font mc swapFix addFix f = .error e) := by
  refine ⟨?_, ?_, ?_, ?_, ?_⟩
  · intro h0 hn
    simp [fix_colr_font, h0, fix_colr_v0_gid1, hn]
  · intro g h0 hn hg hc
    have hn' : ¬ f.maxpNumGlyphs < 2 := by omega
    simp [fix_colr_font, h0, fix_colr_v0_gid1, hn', hg, hc]
  · intro h1 hs
    simp [fix_colr_font, h1, fix_colr_v1_add_svg, hs]
  · intro h1 hs hmc
    simp [fix_colr_font, h1, fix_colr_v1_add_svg, hs, hmc]
  · intro v hv h0 h1
    obtain ⟨k, rfl⟩ : ∃ k, v = k + 2 := ⟨v - 2, by omega⟩
    exact ⟨"NotImplementedError: COLR version not supported",
      by simp [fix_colr_font, hv]⟩

/-- Witness for C7: the dispatcher is a no-op on a one-glyph COLR v0 font,
and fails on a COLR v1 font whose rasterizer (here the identity) produces no
"SVG " table. -/
theorem fix_colr_font_spec_witness :
    fix_colr_font id id id colr0Font = .ok colr0Font ∧
      fix_colr_font id id id colr1Font =
        .error "AssertionError: SVG table is missing" := by
  constructor
  · exact (fix_colr_font_spec id id id colr0Font).1 rfl (by decide)
  · exact (fix_colr_font_spec id id id colr1Font).2.2.2.1 rfl rfl rfl

theorem testBit_one_shiftLeft (n i : Nat) :
    ((1 <<< n) : Nat).testBit i = decide (n = i) := by
  rw [Nat.shiftLeft_eq, one_mul, Nat.testBit_two_pow]

theorem testBit_lit_one (i : Nat) : Nat.testBit 1 i = decide (0 = i) := by
  rw [show (1 : Nat) = 2 ^ 0 by norm_num, Nat.testBit_two_pow]

theorem testBit_lit_32 (i : Nat) : Nat.testBit 32 i = decide (5 = i) := by
  rw [show (32 : Nat) = 2 ^ 5 by norm_num, Nat.testBit_two_pow]

theorem testBit_lit_64 (i : Nat) : Nat.testBit 64 i = decide (6 = i) := by
  rw [show (64 : Nat) = 2 ^ 6 by norm_num, Nat.testBit_two_pow]

theorem testBit_lit_128 (i : Nat) : Nat.testBit 128 i = decide (7 = i) := by
  rw [show (128 : Nat) = 2 ^ 7 by norm_num, Nat.testBit_two_pow]

theorem fix_fs_selection_testBit (f : Font) (i : Nat) :
    ((fix_fs_selection f).1.os2.fsSelection).testBit i =
      ((f.os2.fsSelection.testBit i && decide (7 = i)) ||
        ((tokensOf (font_stylename f)).contains "Italic" && decide (0 = i)) ||
        ((tokensOf (font_stylename f)).contains "Bold" && decide (5 = i)) ||
        (!((tokensOf (font_stylename f)).contains "Bold" ||
            (tokensOf (font_stylename f)).contains "Italic") &&
          decide (6 = i))) := by
  simp only [fix_fs_selection, fsSelectionBits]
  cases hI : (tokensOf (font_stylename f)).contains "Italic" <;>
    cases hB : (tokensOf (font_stylename f)).contains "Bold" <;>
      simp [hI, hB, Nat.testBit_or, Nat.testBit_and, testBit_one_shiftLeft,
        testBit_lit_one, testBit_lit_32, testBit_lit_64, testBit_lit_128,
        Bool.or_assoc, Bool.or_comm, Bool.or_left_comm]

/-- Claim C4: `fix_fs_selection` recomputes fsSelection from the style
tokens: bit 0 iff "Italic" is a token, bit 5 iff "Bold" is a token, bit 6
iff neither is, bit 7 survives from the old value, every other bit is
cleared, and the returned flag reports whether the stored value changed. -/
theorem fix_fs_selection_spec (f : Font) :
    ((fix_fs_selection f).1.os2.fsSelection.testBit 0 =
        (tokensOf (font_stylename f)).contains "Italic") ∧
      ((fix_fs_selection f).1.os2.fsSelection.testBit 5 =
        (tokensOf (font_stylename f)).contains "Bold") ∧
      ((fix_fs_selection f).1.os2.fsSelection.testBit 6 =
        !((tokensOf (font_stylename f)).contains "Bold" ||
          (tokensOf (font_stylename f)).contains "Italic")) ∧
      ((fix_fs_selection f).1.os2.fsSelection.testBit 7 =
        f.os2.fsSelection.testBit 7) ∧
      (∀ i, i ≠ 0 → i ≠ 5 → i ≠ 6 → i ≠ 7 →
        (fix_fs_selection f).1.os2.fsSelection.testBit i = false) ∧
      ((fix_fs_selection f).2 =
        (f.os2.fsSelection != (fix_fs_selection f).1.os2.fsSelection)) := by
  refine ⟨?_, ?_, ?_, ?_, ?_, ?_⟩
  · rw [fix_fs_selection_testBit]; simp
  · rw [fix_fs_selection_testBit]; simp
  · rw [fix_fs_selection_testBit]; simp
  · rw [fix_fs_selection_testBit]; simp
  · intro i h0 h5 h6 h7
    rw [fix_fs_selection_testBit]
    have d0 : decide (0 = i) = false := decide_eq_false fun h => h0 h.symm
    have d5 : decide (5 = i) = false := decide_eq_false fun h => h5 h.symm
    have d6 : decide (6 = i) = false := decide_eq_false fun h => h6 h.symm
    have d7 : decide (7 = i) = false := decide_eq_false fun h => h7 h.symm
    simp [d0, d5, d6, d7]
  · rfl

/-- Witness for C4: style "Bold Italic" with previous fsSelection bits
{6, 7}: bits 0 and 5 get set, bit 6 cleared, bit 7 kept, and the change is
reported. -/
theorem fix_fs_selection_spec_witness :
    (fix_fs_selection boldItalicFont).1.os2.fsSelection.testBit 0 = true ∧
      (fix_fs_selection boldItalicFont).1.os2.fsSelection.testBit 5 = true ∧
      (fix_fs_selection boldItalicFont).1.os2.fsSelection.testBit 6 = false ∧
      (fix_fs_selection boldItalicFont).1.os2.fsSelection.testBit 7 = true ∧
      (fix_fs_selection boldItalicFont).1.os2.fsSelection.testBit 9 = false ∧
      (fix_fs_selection boldItalicFont).2 = true := by
  have h := fix_fs_selection_spec boldItalicFont
  refine ⟨?_, ?_, ?_, ?_, ?_, ?_⟩
  · rw [h.1]; decide
  · rw [h.2.1]; decide
  · rw [h.2.2.1]; decide
  · rw [h.2.2.2.1]; decide
  · exact h.2.2.2.2.1 9 (by decide) (by decide) (by decide) (by decide)
  · rw [h.2.2.2.2.2]; decide

theorem fix_weight_class_eq_target (f : Font) :
    fix_weight_class f =
      (weightTarget f).map
        (fun w => (setWeightClass f w, w != f.os2.usWeightClass)) := by
  unfold fix_weight_class weightTarget
  dsimp only
  cases hv : fvarWghtDefault f with
  | some v => rfl
  | none =>
      dsimp only
      cases hf : WEIGHT_NAMES_SORTED.find?
          (fun p => (tokensOf (font_stylename f)).contains p.1) with
      | some p => rfl
      | none =>
          dsimp only
          cases hi : (tokensOf (font_stylename f)).contains "Italic" <;>
            simp [hi, Except.map]

/-- Claim C3: `fix_weight_class` prefers the fvar wght-axis default
(integer-truncated) over the style name; otherwise the first weight name in
the length-sorted table occurring among the style tokens decides; otherwise
an "Italic" token yields 400; in every successful case the returned flag
says whether the stored value changed. -/
theorem fix_weight_class_spec (f : Font) :
    (∀ v, fvarWghtDefault f = some v →
        fix_weight_class f =
          .ok (setWeightClass f (pyTrunc v),
               pyTrunc v != f.os2.usWeightClass)) ∧
      (∀ p, fvarWghtDefault f = none →
        WEIGHT_NAMES_SORTED.find?
            (fun q => (tokensOf (font_stylename f)).contains q.1) = some p →
        fix_weight_class f =
          .ok (setWeightClass f p.2, p.2 != f.os2.usWeightClass)) ∧
      (fvarWghtDefault f = none →
        WEIGHT_NAMES_SORTED.find?
            (fun q => (tokensOf (font_stylename f)).contains q.1) = none →
        (tokensOf (font_stylename f)).contains "Italic" = true →
        fix_weight_class f =
          .ok (setWeightClass f 400, (400 : Int) != f.os2.usWeightClass)) ∧
      (∀ f' c, fix_weight_class f = .ok (f', c) →
        c = (f'.os2.usWeightClass != f.os2.usWeightClass)) := by
  refine ⟨?_, ?_, ?_, ?_⟩
  · intro v h
    rw [fix_weight_class_eq_target]
    simp only [weightTarget, h, Except.map]
  · intro p h hf
    rw [fix_weight_class_eq_target]
    simp only [weightTarget, h, hf, Except.map]
  · intro h hf hi
    rw [fix_weight_class_eq_target]
    simp only [weightTarget, h, hf, hi, Except.map]
    simp
  · intro f' c hok
    rw [fix_weight_class_eq_target] at hok
    cases ht : weightTarget f with
    | error e => rw [ht] at hok; exact absurd hok (by simp [Except.map])
    | ok w =>
        rw [ht] at hok
        simp only [Except.map] at hok
        injection hok with h
        injection h with h1 h2
        rw [← h1, ← h2]
        simp [setWeightClass]

/-- Witness for C3: "Black" yields weight class 900, "ExtraBold Italic"
yields 800, and both report a change from the previous value 0. -/
theorem fix_weight_class_spec_witness :
    fix_weight_class blackFont = .ok (setWeightClass blackFont 900, true) ∧
      fix_weight_class ebiFont = .ok (setWeightClass ebiFont 800, true) := by
  constructor
  · have h := (fix_weight_class_spec blackFont).2.1 ("Black", 900) rfl (by decide)
    rw [h]; rfl
  · have h := (fix_weight_class_spec ebiFont).2.1 ("ExtraBold", 800) rfl (by decide)
    rw [h]; rfl

/-- Claim C9: on a font whose fvar table carries a wght axis,
`fix_weight_class` succeeds and never consults the style name: the stored
weight class and the change flag are the same for every style name, so the
unclassifiable-style error is unreachable. -/
theorem fix_weight_class_fvar_total (f : Font) (v : Rat)
    (h : fvarWghtDefault f = some v) :
    fix_weight_class f =
        .ok (setWeightClass f (pyTrunc v), pyTrunc v != f.os2.usWeightClass) ∧
      ∀ s, (fix_weight_class { f with styleName := s }).map
          (fun p => (p.1.os2.usWeightClass, p.2)) =
        .ok (pyTrunc v, pyTrunc v != f.os2.usWeightClass) := by
  constructor
  · exact (fix_weight_class_spec f).1 v h
  · intro s
    have h' : fvarWghtDefault { f with styleName := s } = some v := h
    rw [(fix_weight_class_spec { f with styleName := s }).1 v h']
    simp [setWeightClass, Except.map]

/-- Witness for C9: a variable font with wght default 550 and an
unclassifiable style name gets weight class 550 without error. -/
theorem fix_weight_class_fvar_total_witness :
    (fix_weight_class { vfFont with styleName := "Nonsense" }).map
        (fun p => (p.1.os2.usWeightClass, p.2)) = .ok (550, true) :=
  (fix_weight_class_fvar_total vfFont 550 (by decide)).2 "Nonsense"

set_option maxRecDepth 8192 in
/-- Claim C5 (code bug): on a monospace font (all 26 uppercase widths 600)
whose `hhea.advanceWidthMax` (500) disagrees with the maximum width, the
update path references the misspelled name `messsages` and raises
`NameError` instead of storing the maximum; on a consistent monospace font
the fields are set as the claim describes. -/
theorem fix_isFixedPitch_messsages_bug :
    fix_isFixedPitch monoBugFont =
        .error "NameError: name messsages is not defined" ∧
      (fix_isFixedPitch monoOkFont).toOption.map
          (fun p => (p.1.post.isFixedPitch, p.1.os2.panose.bFamilyType,
                     p.1.os2.panose.bProportion, p.1.hhea.advanceWidthMax,
                     p.1.os2.xAvgCharWidth, p.2)) =
        some (1, 2, 9, 600, 600, true) := by
  constructor
  · rfl
  · decide

theorem le_foldl_max (l : List Int) (a : Int) :
    a ≤ l.foldl max a ∧ ∀ x ∈ l, x ≤ l.foldl max a := by
  induction l generalizing a with
  | nil => simp
  | cons b t ih =>
      rcases ih (max a b) with ⟨h1, h2⟩
      refine ⟨le_trans (le_max_left a b) h1, ?_⟩
      intro x hx
      rcases List.mem_cons.mp hx with rfl | hx
      · exact le_trans (le_max_right a x) h1
      · exact h2 x hx

theorem foldl_min_le (l : List Int) (a : Int) :
    l.foldl min a ≤ a ∧ ∀ x ∈ l, l.foldl min a ≤ x := by
  induction l generalizing a with
  | nil => simp
  | cons b t ih =>
      rcases ih (min a b) with ⟨h1, h2⟩
      refine ⟨le_trans h1 (min_le_left a b), ?_⟩
      intro x hx
      rcases List.mem_cons.mp hx with rfl | hx
      · exact le_trans h1 (min_le_right a x)
      · exact h2 x hx

theorem family_bounding_box_bounds (ttFonts : List Font) (f : Font)
    (hf : f ∈ ttFonts) :
    (family_bounding_box ttFonts).1 ≤ f.head.yMin ∧
      f.head.yMax ≤ (family_bounding_box ttFonts).2 := by
  cases ttFonts with
  | nil => cases hf
  | cons f0 rest =>
      have hmin := foldl_min_le (rest.map (fun g => g.head.yMin)) f0.head.yMin
      have hmax := le_foldl_max (rest.map (fun g => g.head.yMax)) f0.head.yMax
      rw [List.foldl_map] at hmin hmax
      rcases List.mem_cons.mp hf with rfl | hf
      · exact ⟨hmin.1, hmax.1⟩
      · exact ⟨hmin.2 _ (List.mem_map_of_mem _ hf),
          hmax.2 _ (List.mem_map_of_mem _ hf)⟩

/-- Claim C2: after `fix_vertical_metrics`, every font of the family carries
the eight vertical-metric fields of the (fully updated) source-of-truth font
— the font styled "Regular", else the first — every font has fsSelection
bit 7 set, and win ascent/descent equal the family bounding box extremes
(descent as an absolute value), hence bound every font's glyph extents. -/
theorem fix_vertical_metrics_spec (ttFonts out : List Font)
    (h : fix_vertical_metrics ttFonts = some out) :
    (∀ g ∈ out, vmsOf g = vmsOf (vmSrcAfter ttFonts)) ∧
      (∀ g ∈ out, g.os2.fsSelection.testBit 7 = true) ∧
      ((vmSrcAfter ttFonts).os2.usWinAscent =
        (family_bounding_box ttFonts).2) ∧
      ((vmSrcAfter ttFonts).os2.usWinDescent =
        abs (family_bounding_box ttFonts).1) ∧
      (∀ f ∈ ttFonts,
        f.head.yMax ≤ (vmSrcAfter ttFonts).os2.usWinAscent ∧
          -f.head.yMin ≤ (vmSrcAfter ttFonts).os2.usWinDescent) := by
  cases ttFonts with
  | nil => cases h
  | cons f0 rest =>
      have hout : out =
          (f0 :: rest).map
            (fun f =>
              copy_vertical_metrics (vmSrcAfter (f0 :: rest))
                { f with os2 :=
                    { f.os2 with
                        fsSelection := f.os2.fsSelection ||| (1 <<< 7) } }) := by
        have := h.symm
        simpa [fix_vertical_metrics] using this
      have hasc : (vmSrcAfter (f0 :: rest)).os2.usWinAscent =
          (family_bounding_box (f0 :: rest)).2 := rfl
      have hdesc : (vmSrcAfter (f0 :: rest)).os2.usWinDescent =
          abs (family_bounding_box (f0 :: rest)).1 := rfl
      refine ⟨?_, ?_, hasc, hdesc, ?_⟩
      · intro g hg
        rw [hout] at hg
        rcases List.mem_map.mp hg with ⟨f, _, rfl⟩
        rfl
      · intro g hg
        rw [hout] at hg
        rcases List.mem_map.mp hg with ⟨f, _, rfl⟩
        show (f.os2.fsSelection ||| (1 <<< 7)).testBit 7 = true
        rw [Nat.testBit_or, show ((1 <<< 7) : Nat).testBit 7 = true from rfl,
          Bool.or_true]
      · intro f hf
        rcases family_bounding_box_bounds (f0 :: rest) f hf with ⟨h1, h2⟩
        rw [hasc, hdesc]
        constructor
        · exact h2
        · calc -f.head.yMin ≤ -(family_bounding_box (f0 :: rest)).1 := by omega
            _ ≤ abs (family_bounding_box (f0 :: rest)).1 := neg_le_abs _

/-- Witness for C2: the three-font family with differing win metrics ends up
with all members carrying the source font's metrics and bit 7 set, and the
ascent bound holds for the first font. -/
theorem fix_vertical_metrics_spec_witness :
    vmsOf (vmWitnessOut.getD 0 baseFont) = vmsOf (vmSrcAfter vmWitnessFamily) ∧
      (vmWitnessOut.getD 0 baseFont).os2.fsSelection.testBit 7 = true ∧
      vmFontA.head.yMax ≤ (vmSrcAfter vmWitnessFamily).os2.usWinAscent := by
  have h := fix_vertical_metrics_spec vmWitnessFamily vmWitnessOut rfl
  refine ⟨h.1 _ ?_, h.2.1 _ ?_, (h.2.2.2.2 vmFontA ?_).1⟩
  · decide
  · decide
  · decide

section ListLemmas

variable {α : Type} (p q : α → Bool)

theorem countP_eraseP_le (l : List α) :
    (l.eraseP q).countP p ≤ l.countP p := by
  induction l with
  | nil => simp
  | cons a t ih =>
      by_cases hq : q a
      · rw [List.eraseP_cons_of_pos hq, List.countP_cons]
        omega
      · rw [List.eraseP_cons_of_neg hq, List.countP_cons, List.countP_cons]
        omega

theorem countP_eraseP_self_add_one (l : List α) (h : ∃ a ∈ l, q a = true) :
    (l.eraseP q).countP q + 1 = l.countP q := by
  induction l with
  | nil => simp at h
  | cons a t ih =>
      by_cases hq : q a
      · rw [List.eraseP_cons_of_pos hq, List.countP_cons, if_pos hq]
      · rw [List.eraseP_cons_of_neg hq, List.countP_cons, List.countP_cons,
          if_neg hq]
        have h' : ∃ a ∈ t, q a = true := by
          rcases h with ⟨a', ha', hqa'⟩
          rcases List.mem_cons.mp ha' with rfl | ha'
          · exact absurd hqa' hq
          · exact ⟨a', ha', hqa'⟩
        have := ih h'
        omega

theorem countP_eraseP_of_disjoint (l : List α)
    (h : ∀ a, q a = true → p a = false) :
    (l.eraseP q).countP p = l.countP p := by
  induction l with
  | nil => simp
  | cons a t ih =>
      by_cases hq : q a
      · rw [List.eraseP_cons_of_pos hq, List.countP_cons, if_neg]
        · omega
        · simp [h a hq]
      · rw [List.eraseP_cons_of_neg hq, List.countP_cons, List.countP_cons, ih]

theorem length_eraseP_le (l : List α) :
    (l.eraseP q).length ≤ l.length := by
  induction l with
  | nil => simp
  | cons a t ih =>
      by_cases hq : q a
      · rw [List.eraseP_cons_of_pos hq]; simp
      · rw [List.eraseP_cons_of_neg hq]; simpa using ih

theorem length_eraseP_of_any (l : List α) (h : ∃ a ∈ l, q a = true) :
    (l.eraseP q).length + 1 = l.length := by
  induction l with
  | nil => simp at h
  | cons a t ih =>
      by_cases hq : q a
      · rw [List.eraseP_cons_of_pos hq]
        rfl
      · rw [List.eraseP_cons_of_neg hq]
        have h' : ∃ a ∈ t, q a = true := by
          rcases h with ⟨a', ha', hqa'⟩
          rcases List.mem_cons.mp ha' with rfl | ha'
          · exact absurd hqa' hq
          · exact ⟨a', ha', hqa'⟩
        simpa using ih h'

end ListLemmas

theorem macKey_disjoint (m n : Nat) (hmn : m ≠ n) :
    ∀ r : NameRecord, macKey m r = true → macKey n r = false := by
  intro r hm
  simp only [macKey, Bool.and_eq_true, beq_iff_eq] at hm
  simp only [macKey, Bool.and_eq_false_iff, beq_eq_false_iff_ne, ne_eq]
  exact Or.inl (Or.inl (Or.inl (fun h => hmn (hm.1.1.1.symm.trans h))))

theorem dropNameIDs_countP_le (ids : List Nat) (nm : List NameRecord)
    (p : NameRecord → Bool) :
    ((dropNameIDs nm ids).1).countP p ≤ nm.countP p := by
  induction ids generalizing nm with
  | nil => simp [dropNameIDs]
  | cons n rest ih =>
      simp only [dropNameIDs]
      cases hg : getMacName nm n with
      | some r =>
          exact le_trans (ih (nm.eraseP (macKey n)))
            (countP_eraseP_le p (macKey n) nm)
      | none => exact ih nm

theorem dropNameIDs_count_protected (ids : List Nat) (nm : List NameRecord)
    (r : NameRecord) (h : ∀ n ∈ ids, macKey n r = false) :
    ((dropNameIDs nm ids).1).count r = nm.count r := by
  induction ids generalizing nm with
  | nil => simp [dropNameIDs]
  | cons n rest ih =>
      simp only [dropNameIDs]
      cases hg : getMacName nm n with
      | some r' =>
          rw [ih (nm.eraseP (macKey n)) (fun m hm => h m (List.mem_cons_of_mem n hm))]
          rw [List.count_eq_countP, List.count_eq_countP]
          refine countP_eraseP_of_disjoint _ (macKey n) nm ?_
          intro a hqa
          by_cases har : a = r
          · subst har; exact absurd hqa (by simp [h n (List.mem_cons_self n rest)])
          · simp [har]
      | none => exact ih nm (fun m hm => h m (List.mem_cons_of_mem n hm))

theorem dropNameIDs_countP_other (ids : List Nat) (nm : List NameRecord)
    (n : Nat) (h : n ∉ ids) :
    ((dropNameIDs nm ids).1).countP (macKey n) = nm.countP (macKey n) := by
  induction ids generalizing nm with
  | nil => simp [dropNameIDs]
  | cons m rest ih =>
      have hmn : m ≠ n := fun hh => h (hh ▸ List.mem_cons_self m rest)
      have hrest : n ∉ rest := fun hh => h (List.mem_cons_of_mem m hh)
      simp only [dropNameIDs]
      cases hg : getMacName nm m with
      | some r =>
          rw [ih (nm.eraseP (macKey m)) hrest]
          exact countP_eraseP_of_disjoint (macKey n) (macKey m) nm
            (macKey_disjoint m n hmn)
      | none => exact ih nm hrest

theorem getMacName_some_exists (nm : List NameRecord) (n : Nat)
    (r : NameRecord) (h : getMacName nm n = some r) :
    ∃ a ∈ nm, macKey n a = true :=
  ⟨r, List.mem_of_find?_eq_some h, List.find?_some h⟩

theorem dropNameIDs_at_most_one (ids : List Nat) (nm : List NameRecord)
    (hnd : ids.Nodup) (n : Nat) :
    nm.countP (macKey n) ≤ ((dropNameIDs nm ids).1).countP (macKey n) + 1 := by
  induction ids generalizing nm with
  | nil => simp [dropNameIDs]
  | cons m rest ih =>
      rcases List.nodup_cons.mp hnd with ⟨hm, hrest⟩
      simp only [dropNameIDs]
      cases hg : getMacName nm m with
      | some r =>
          dsimp only
          by_cases hmn : m = n
          · subst hmn
            have he := countP_eraseP_self_add_one (macKey m) nm
              (getMacName_some_exists nm m r hg)
            rw [dropNameIDs_countP_other rest (nm.eraseP (macKey m)) m hm]
            omega
          · have hpres := countP_eraseP_of_disjoint (macKey n) (macKey m) nm
              (macKey_disjoint m n hmn)
            have := ih (nm.eraseP (macKey m)) hrest
            omega
      | none => exact ih nm hrest

theorem dropNameIDs_flag_false_eq (ids : List Nat) (nm : List NameRecord)
    (h : (dropNameIDs nm ids).2 = false) : (dropNameIDs nm ids).1 = nm := by
  induction ids generalizing nm with
  | nil => rfl
  | cons n rest ih =>
      revert h
      simp only [dropNameIDs]
      cases hg : getMacName nm n with
      | some r => intro h; cases h
      | none => exact ih nm

theorem dropNameIDs_length_le (ids : List Nat) (nm : List NameRecord) :
    (dropNameIDs nm ids).1.length ≤ nm.length := by
  induction ids generalizing nm with
  | nil => simp [dropNameIDs]
  | cons n rest ih =>
      simp only [dropNameIDs]
      cases hg : getMacName nm n with
      | some r =>
          exact le_trans (ih (nm.eraseP (macKey n)))
            (length_eraseP_le (macKey n) nm)
      | none => exact ih nm

theorem dropNameIDs_flag_true_length (ids : List Nat) (nm : List NameRecord)
    (h : (dropNameIDs nm ids).2 = true) :
    (dropNameIDs nm ids).1.length < nm.length := by
  induction ids generalizing nm with
  | nil => cases h
  | cons n rest ih =>
      revert h
      simp only [dropNameIDs]
      cases hg : getMacName nm n with
      | some r =>
          intro _
          dsimp only
          have h1 := length_eraseP_of_any (macKey n) nm
            (getMacName_some_exists nm n r hg)
          have h2 := dropNameIDs_length_le rest (nm.eraseP (macKey n))
          omega
      | none => exact ih nm

theorem dropNameIDs_flag_iff (ids : List Nat) (nm : List NameRecord) :
    (dropNameIDs nm ids).2 = true ↔ (dropNameIDs nm ids).1.length < nm.length := by
  constructor
  · exact dropNameIDs_flag_true_length ids nm
  · intro h
    by_contra hf
    have := dropNameIDs_flag_false_eq ids nm (by simpa using hf)
    rw [this] at h
    omega

theorem macKey_false_of_protected (r : NameRecord) (n : Nat) (hn : n < 255)
    (h : r.platformID ≠ 1 ∨ r.platEncID ≠ 0 ∨ r.langID ≠ 0 ∨ 255 ≤ r.nameID) :
    macKey n r = false := by
  simp only [macKey, Bool.and_eq_false_iff, beq_eq_false_iff_ne, ne_eq]
  rcases h with h | h | h | h
  · exact Or.inl (Or.inl (Or.inr h))
  · exact Or.inl (Or.inr h)
  · exact Or.inr h
  · exact Or.inl (Or.inl (Or.inl (by omega)))

/-- Claim C10: the two Macintosh name-pruning rules only remove records with
nameID 0–254, platform 1, encoding 0, language 0 — any other record keeps
its multiplicity — they remove at most one matching record per nameID per
call, and they return true exactly when something was removed. -/
theorem mac_name_pruning_spec (f : Font) :
    (∀ r : NameRecord,
        r.platformID ≠ 1 ∨ r.platEncID ≠ 0 ∨ r.langID ≠ 0 ∨ 255 ≤ r.nameID →
        (drop_superfluous_mac_names f).1.name.count r = f.name.count r ∧
          (drop_mac_names f).1.name.count r = f.name.count r) ∧
      (∀ n : Nat,
        f.name.countP (macKey n) ≤
            (drop_superfluous_mac_names f).1.name.countP (macKey n) + 1 ∧
          f.name.countP (macKey n) ≤
            (drop_mac_names f).1.name.countP (macKey n) + 1) ∧
      ((drop_superfluous_mac_names f).2 = true ↔
        (drop_superfluous_mac_names f).1.name.length < f.name.length) ∧
      ((drop_mac_names f).2 = true ↔
        (drop_mac_names f).1.name.length < f.name.length) := by
  have hnd1 : ((List.range 255).filter (fun n => ¬ keep_ids.contains n)).Nodup :=
    (List.nodup_range 255).filter _
  have hnd2 : (List.range 255).Nodup := List.nodup_range 255
  have hlt1 : ∀ n ∈ (List.range 255).filter (fun n => ¬ keep_ids.contains n),
      n < 255 := fun n hn => List.mem_range.mp (List.mem_filter.mp hn).1
  have hlt2 : ∀ n ∈ List.range 255, n < 255 := fun n hn => List.mem_range.mp hn
  refine ⟨?_, ?_, ?_, ?_⟩
  · intro r h
    constructor
    · exact dropNameIDs_count_protected _ f.name r
        (fun n hn => macKey_false_of_protected r n (hlt1 n hn) h)
    · exact dropNameIDs_count_protected _ f.name r
        (fun n hn => macKey_false_of_protected r n (hlt2 n hn) h)
  · intro n
    exact ⟨dropNameIDs_at_most_one _ f.name hnd1 n,
      dropNameIDs_at_most_one _ f.name hnd2 n⟩
  · exact dropNameIDs_flag_iff _ f.name
  · exact dropNameIDs_flag_iff _ f.name

/-- Witness for C10: on the concrete name table, the out-of-range Macintosh
record (nameID 300) survives with its multiplicity, and the superfluous-name
pass reports a removal. -/
theorem mac_name_pruning_spec_witness :
    (drop_superfluous_mac_names pruneFont).1.name.count ⟨300, 1, 0, 0, "hi"⟩ = 1 ∧
      (drop_superfluous_mac_names pruneFont).2 = true := by
  have h := mac_name_pruning_spec pruneFont
  constructor
  · have h1 := (h.1 ⟨300, 1, 0, 0, "hi"⟩ (by decide)).1
    rw [h1]
    decide
  · exact (h.2.2.1).mpr (by decide)

theorem remove_tables_idem (fontTables : List String)
    (tables : Option (List String)) :
    remove_tables (remove_tables fontTables tables) tables =
      remove_tables fontTables tables := by
  rw [remove_tables_as_filter (remove_tables fontTables tables) tables,
    List.filter_eq_self]
  intro a ha
  rcases (mem_remove_tables fontTables tables a).mp ha with ⟨haf, hnot⟩
  simp only [List.contains, decide_eq_true_eq, List.elem_iff, List.mem_filter,
    Bool.and_eq_true]
  rintro ⟨hreq, hu, _⟩
  exact hnot ⟨hu, hreq⟩

theorem fix_fs_type_idem (f : Font) : (fix_fs_type (fix_fs_type f).1).2 = false := by
  simp [fix_fs_type]

theorem fsSelectionBits_bit7 (tokens : List String) (x : Nat) :
    fsSelectionBits tokens x &&& (1 <<< 7) = x &&& (1 <<< 7) := by
  have hx := Nat.and_two_pow x 7
  rw [show ((1 <<< 7) : Nat) = 2 ^ 7 from rfl]
  cases htb : x.testBit 7 <;> rw [htb] at hx <;>
    cases hI : tokens.contains "Italic" <;>
      cases hB : tokens.contains "Bold" <;>
        simp only [fsSelectionBits, hI, hB,
          show ((1 <<< 7) : Nat) = 2 ^ 7 from rfl, hx] <;> decide

theorem fsSelectionBits_idem (tokens : List String) (x : Nat) :
    fsSelectionBits tokens (fsSelectionBits tokens x) = fsSelectionBits tokens x := by
  conv_lhs => rw [fsSelectionBits.eq_def]
  rw [fsSelectionBits_bit7]
  rfl

theorem fix_fs_selection_idem (f : Font) :
    (fix_fs_selection (fix_fs_selection f).1).2 = false := by
  show ((fix_fs_selection f).1.os2.fsSelection !=
    fsSelectionBits (tokensOf (font_stylename (fix_fs_selection f).1))
      (fix_fs_selection f).1.os2.fsSelection) = false
  show (fsSelectionBits (tokensOf (font_stylename f)) f.os2.fsSelection !=
    fsSelectionBits (tokensOf (font_stylename f))
      (fsSelectionBits (tokensOf (font_stylename f)) f.os2.fsSelection)) = false
  rw [fsSelectionBits_idem]
  simp

theorem fix_mac_style_idem (f : Font) :
    (fix_mac_style (fix_mac_style f).1).2 = false := by
  simp [fix_mac_style, font_stylename]

theorem fix_italic_angle_idem (f : Font) :
    (fix_italic_angle (fix_italic_angle f).1).2 = false := by
  by_cases h : (¬ strContains (font_stylename f) "Italic" &&
      f.post.italicAngle != 0) = true
  · have h1 : fix_italic_angle f =
        ({ f with post := { f.post with italicAngle := 0 } }, true) := by
      simp only [fix_italic_angle, if_pos h]
    rw [h1]
    simp [fix_italic_angle, font_stylename]
  · have h1 : fix_italic_angle f = (f, false) := by
      simp only [fix_italic_angle, if_neg h]
    rw [h1]
    simp only [fix_italic_angle, if_neg h]

theorem weightTarget_setWeightClass (f : Font) (w : Int) :
    weightTarget (setWeightClass f w) = weightTarget f := rfl

theorem fix_weight_class_idem (f f' : Font) (c : Bool)
    (h : fix_weight_class f = .ok (f', c)) :
    fix_weight_class f' = .ok (f', false) := by
  rw [fix_weight_class_eq_target] at h
  cases ht : weightTarget f with
  | error e => rw [ht] at h; exact absurd h (by simp [Except.map])
  | ok w =>
      rw [ht] at h
      simp only [Except.map] at h
      injection h with h
      injection h with h1 h2
      rw [fix_weight_class_eq_target, ← h1, weightTarget_setWeightClass f w, ht]
      simp only [Except.map, setWeightClass, bne_self_eq_false]

theorem ifpFixedFlag_fields (f : Font) :
    (ifpFixedFlag f).1.hmtx = f.hmtx ∧ (ifpFixedFlag f).1.os2 = f.os2 ∧
      (ifpFixedFlag f).1.hhea = f.hhea := by
  unfold ifpFixedFlag
  split <;> simp

theorem ifpFixedFlag_one (f : Font) :
    (ifpFixedFlag f).1.post.isFixedPitch = 1 := by
  unfold ifpFixedFlag
  split
  · next h => simpa using h
  · simp

theorem ifpFixedFlag_of_one (f : Font) (h : f.post.isFixedPitch = 1) :
    ifpFixedFlag f = (f, false) := by
  simp [ifpFixedFlag, h]

theorem ifpPanose_fields (f : Font) :
    (ifpPanose f).1.hmtx = f.hmtx ∧ (ifpPanose f).1.post = f.post ∧
      (ifpPanose f).1.hhea = f.hhea ∧
      (ifpPanose f).1.os2.xAvgCharWidth = f.os2.xAvgCharWidth := by
  unfold ifpPanose
  simp only [beq_iff_eq, Bool.or_eq_true]
  split_ifs <;> simp

/-- The panose state reached after one pass of the panose step: the
proportion agrees with the family type, and the family type is no longer
unset. -/
def panoseFixed (p : Panose) : Prop :=
  (p.bFamilyType = 2 → p.bProportion = 9) ∧
    ((p.bFamilyType = 3 ∨ p.bFamilyType = 5) → p.bProportion = 3) ∧
    p.bFamilyType ≠ 0

theorem ifpPanose_result_fixed (f : Font) :
    panoseFixed ((ifpPanose f).1.os2.panose) := by
  unfold ifpPanose panoseFixed
  simp only [beq_iff_eq, Bool.or_eq_true]
  split_ifs <;> simp_all <;> omega

theorem ifpPanose_of_fixed (f : Font) (h : panoseFixed f.os2.panose) :
    ifpPanose f = (f, false) := by
  rcases h with ⟨h2, h35, h0⟩
  unfold ifpPanose
  simp only [beq_iff_eq, Bool.or_eq_true]
  split_ifs <;> simp_all

theorem fix_isFixedPitch_second_mono (f' : Font) (ws : List Int)
    (hw : lookupWidths f'.hmtx azLetters = .ok ws)
    (hs : sameWidthOne ws = true)
    (hfix : f'.post.isFixedPitch = 1)
    (hpan : panoseFixed f'.os2.panose)
    (hne : (positiveWidths f'.hmtx).isEmpty = false)
    (hmax : (f'.hhea.advanceWidthMax == maxList (positiveWidths f'.hmtx)) = true)
    (havg : (otRoundDiv (positiveWidths f'.hmtx).sum
        (positiveWidths f'.hmtx).length == f'.os2.xAvgCharWidth) = true) :
    fix_isFixedPitch f' = .ok (f', false) := by
  unfold fix_isFixedPitch
  rw [hw]
  dsimp only
  rw [if_pos hs, ifpFixedFlag_of_one f' hfix]
  dsimp only
  rw [ifpPanose_of_fixed f' hpan]
  dsimp only
  rw [if_neg (by simp [hne]), if_pos hmax, if_pos havg]
  rfl

theorem fix_isFixedPitch_second_nonmono (f' : Font) (ws : List Int)
    (hw : lookupWidths f'.hmtx azLetters = .ok ws)
    (hs : sameWidthOne ws = false)
    (hfix : f'.post.isFixedPitch = 0)
    (hprop : f'.os2.panose.bProportion = 0) :
    fix_isFixedPitch f' = .ok (f', false) := by
  unfold fix_isFixedPitch
  rw [hw]
  dsimp only
  rw [if_neg (by simp [hs]), hfix, hprop]
  have hrec : ({ f' with
        post := { f'.post with isFixedPitch := 0 },
        os2 := { f'.os2 with panose := { f'.os2.panose with bProportion := 0 } } } :
      Font) = f' := by
    conv_lhs => rw [← hfix, ← hprop]
  rw [hrec]
  rfl

theorem fix_isFixedPitch_idem (f f' : Font) (c : Bool)
    (h : fix_isFixedPitch f = .ok (f', c)) :
    fix_isFixedPitch f' = .ok (f', false) := by
  have hAf := ifpFixedFlag_fields f
  have hBf := ifpPanose_fields (ifpFixedFlag f).1
  have hmtxB : (ifpPanose (ifpFixedFlag f).1).1.hmtx = f.hmtx :=
    hBf.1.trans hAf.1
  have hfixB : (ifpPanose (ifpFixedFlag f).1).1.post.isFixedPitch = 1 := by
    rw [hBf.2.1]; exact ifpFixedFlag_one f
  have hpanB : panoseFixed (ifpPanose (ifpFixedFlag f).1).1.os2.panose :=
    ifpPanose_result_fixed (ifpFixedFlag f).1
  have hheaB : (ifpPanose (ifpFixedFlag f).1).1.hhea = f.hhea :=
    hBf.2.2.1.trans hAf.2.2
  unfold fix_isFixedPitch at h
  cases hlw : lookupWidths f.hmtx azLetters with
  | error e => rw [hlw] at h; cases h
  | ok ws =>
      rw [hlw] at h
      dsimp only at h
      by_cases hs : sameWidthOne ws = true
      · rw [if_pos hs] at h
        by_cases hemp : (positiveWidths f.hmtx).isEmpty = true
        · rw [if_pos hemp] at h; cases h
        · rw [if_neg hemp] at h
          have hempf : (positiveWidths f.hmtx).isEmpty = false := by
            revert hemp; cases (positiveWidths f.hmtx).isEmpty <;> simp
          by_cases hmax : ((ifpPanose (ifpFixedFlag f).1).1.hhea.advanceWidthMax ==
              maxList (positiveWidths f.hmtx)) = true
          · rw [if_pos hmax] at h
            by_cases havg : (otRoundDiv (positiveWidths f.hmtx).sum
                (positiveWidths f.hmtx).length ==
                (ifpPanose (ifpFixedFlag f).1).1.os2.xAvgCharWidth) = true
            · rw [if_pos havg] at h
              injection h with h
              injection h with h1 h2
              subst h1
              refine fix_isFixedPitch_second_mono _ ws ?_ hs hfixB hpanB ?_ ?_ ?_
              · rw [hmtxB]; exact hlw
              · rw [hmtxB]; exact hempf
              · rw [hmtxB]; exact hmax
              · rw [hmtxB]; exact havg
            · rw [if_neg havg] at h
              injection h with h
              injection h with h1 h2
              subst h1
              refine fix_isFixedPitch_second_mono _ ws ?_ hs ?_ ?_ ?_ ?_ ?_
              · show lookupWidths (ifpPanose (ifpFixedFlag f).1).1.hmtx azLetters =
                  .ok ws
                rw [hmtxB]; exact hlw
              · show (ifpPanose (ifpFixedFlag f).1).1.post.isFixedPitch = 1
                exact hfixB
              · show panoseFixed (ifpPanose (ifpFixedFlag f).1).1.os2.panose
                exact hpanB
              · show (positiveWidths (ifpPanose (ifpFixedFlag f).1).1.hmtx).isEmpty =
                  false
                rw [hmtxB]; exact hempf
              · show ((ifpPanose (ifpFixedFlag f).1).1.hhea.advanceWidthMax ==
                  maxList (positiveWidths (ifpPanose (ifpFixedFlag f).1).1.hmtx)) =
                  true
                rw [hmtxB]; exact hmax
              · show (otRoundDiv (positiveWidths (ifpPanose (ifpFixedFlag f).1).1.hmtx).sum
                  (positiveWidths (ifpPanose (ifpFixedFlag f).1).1.hmtx).length ==
                  otRoundDiv (positiveWidths f.hmtx).sum
                    (positiveWidths f.hmtx).length) = true
                rw [hmtxB]; simp
          · rw [if_neg hmax] at h; cases h
      · rw [if_neg hs] at h
        injection h with h
        injection h with h1 h2
        subst h1
        have hsf : sameWidthOne ws = false := by
          revert hs; cases sameWidthOne ws <;> simp
        exact fix_isFixedPitch_second_nonmono _ ws hlw hsf rfl rfl

theorem getMacName_none_of_countP_zero (nm : List NameRecord) (n : Nat)
    (h : nm.countP (macKey n) = 0) : getMacName nm n = none :=
  List.find?_eq_none.mpr (List.countP_eq_zero.mp h)

theorem dropNameIDs_countP_zero (ids : List Nat) (nm : List NameRecord)
    (h1 : ∀ m, nm.countP (macKey m) ≤ 1) :
    ∀ n ∈ ids, ((dropNameIDs nm ids).1).countP (macKey n) = 0 := by
  induction ids generalizing nm with
  | nil => intro n hn; cases hn
  | cons m rest ih =>
      intro n hn
      simp only [dropNameIDs]
      cases hg : getMacName nm m with
      | some r =>
          dsimp only
          have h1' : ∀ m', (nm.eraseP (macKey m)).countP (macKey m') ≤ 1 :=
            fun m' => le_trans (countP_eraseP_le (macKey m') (macKey m) nm) (h1 m')
          rcases List.mem_cons.mp hn with rfl | hn
          · have he := countP_eraseP_self_add_one (macKey n) nm
              (getMacName_some_exists nm n r hg)
            have hz : (nm.eraseP (macKey n)).countP (macKey n) = 0 := by
              have := h1 n; omega
            have := dropNameIDs_countP_le rest (nm.eraseP (macKey n)) (macKey n)
            omega
          · exact ih (nm.eraseP (macKey m)) h1' n hn
      | none =>
          dsimp only
          rcases List.mem_cons.mp hn with rfl | hn
          · have hz : nm.countP (macKey n) = 0 := by
              by_contra hnz
              rcases List.countP_pos_iff.mp (Nat.pos_of_ne_zero hnz) with ⟨a, ha, hpa⟩
              exact absurd hg (by
                intro hgg
                have := List.find?_eq_none.mp hgg a ha
                exact this hpa)
            have := dropNameIDs_countP_le rest nm (macKey n)
            omega
          · exact ih nm h1 n hn

theorem dropNameIDs_no_matches (ids : List Nat) (nm : List NameRecord)
    (h : ∀ n ∈ ids, getMacName nm n = none) : dropNameIDs nm ids = (nm, false) := by
  induction ids with
  | nil => rfl
  | cons n rest ih =>
      simp only [dropNameIDs, h n (List.mem_cons_self n rest)]
      exact ih (fun m hm => h m (List.mem_cons_of_mem n hm))

theorem drop_superfluous_mac_names_idem (f : Font) (h : noDupMacNames f.name) :
    (drop_superfluous_mac_names (drop_superfluous_mac_names f).1).2 = false := by
  show (dropNameIDs (dropNameIDs f.name _).1 _).2 = false
  rw [dropNameIDs_no_matches]
  intro n hn
  exact getMacName_none_of_countP_zero _ n
    (dropNameIDs_countP_zero _ f.name h n hn)

theorem drop_mac_names_idem (f : Font) (h : noDupMacNames f.name) :
    (drop_mac_names (drop_mac_names f).1).2 = false := by
  show (dropNameIDs (dropNameIDs f.name _).1 _).2 = false
  rw [dropNameIDs_no_matches]
  intro n hn
  exact getMacName_none_of_countP_zero _ n
    (dropNameIDs_countP_zero _ f.name h n hn)

theorem mem_dictSet_of_ne (m : List (Nat × String)) (k : Nat) (v : String)
    (e : Nat × String) (he : e ∈ m) (hne : e.1 ≠ k) : e ∈ dictSet m k v := by
  unfold dictSet
  have hbe : (e.1 == k) = false := beq_eq_false_iff_ne.mpr hne
  split
  · exact List.mem_map.mpr ⟨e, he, by simp [hbe]⟩
  · exact List.mem_append_left _ he

theorem dictSet_mem_self (m : List (Nat × String)) (k : Nat) (v : String)
    (h : m.any (fun e => e.1 == k) = false) : (k, v) ∈ dictSet m k v := by
  unfold dictSet
  rw [if_neg (by simp [h])]
  exact List.mem_append_right _ (List.mem_singleton.mpr rfl)

theorem mem_dictSet_elim (m : List (Nat × String)) (k : Nat) (v : String)
    (e : Nat × String) (h : e ∈ dictSet m k v) : e ∈ m ∨ e = (k, v) := by
  unfold dictSet at h
  split at h
  · rcases List.mem_map.mp h with ⟨a, ha, hae⟩
    by_cases hk : (a.1 == k) = true
    · rw [if_pos hk] at hae; exact Or.inr hae.symm
    · rw [if_neg hk] at hae; exact Or.inl (hae ▸ ha)
  · rcases List.mem_append.mp h with ha | ha
    · exact Or.inl ha
    · exact Or.inr (List.mem_singleton.mp ha)

theorem mem_puaFold_of_no_collision (ug : List String)
    (entries : List (Nat × String)) (m : List (Nat × String))
    (e : Nat × String) (he : e ∈ m)
    (hcol : ∀ kv ∈ entries, e.1 ≠ 0xF0000 + kv.1) :
    e ∈ puaFold ug entries m := by
  induction entries generalizing m with
  | nil => exact he
  | cons p t ih =>
      unfold puaFold
      rw [List.foldl_cons]
      refine ih _ ?_ (fun kv hkv => hcol kv (List.mem_cons_of_mem p hkv))
      by_cases hc : ug.contains p.2 = true
      · rw [if_pos hc]
        exact mem_dictSet_of_ne m _ _ e he (hcol p (List.mem_cons_self p t))
      · rw [if_neg hc]; exact he

theorem mem_puaFold_insert (ug : List String) (entries : List (Nat × String))
    (m : List (Nat × String)) (i : Nat) (g : String)
    (hmem : (i, g) ∈ entries) (hug : ug.contains g = true)
    (hnd : (entries.map Prod.fst).Nodup)
    (hm : ∀ e ∈ m, ∀ kv ∈ entries, e.1 ≠ 0xF0000 + kv.1) :
    (0xF0000 + i, g) ∈ puaFold ug entries m := by
  induction entries generalizing m with
  | nil => cases hmem
  | cons p t ih =>
      have hnd' : (t.map Prod.fst).Nodup :=
        (List.nodup_cons.mp (by simpa using hnd)).2
      have hpfst : p.1 ∉ t.map Prod.fst :=
        (List.nodup_cons.mp (by simpa using hnd)).1
      unfold puaFold
      rw [List.foldl_cons]
      rcases List.mem_cons.mp hmem with heq | hmem'
      · have hp2 : p.2 = g := congrArg Prod.snd heq.symm
        have hp1 : p.1 = i := congrArg Prod.fst heq.symm
        rw [if_pos (by rw [hp2]; exact hug)]
        have hnokey : m.any (fun e => e.1 == (0xF0000 + p.1)) = false := by
          rw [List.any_eq_false]
          intro e he2
          simpa using beq_eq_false_iff_ne.mpr (hm e he2 p (List.mem_cons_self p t))
        subst hp1
        rw [hp2]
        have hself := dictSet_mem_self m (0xF0000 + p.1) g hnokey
        refine mem_puaFold_of_no_collision ug t _ _ hself ?_
        intro kv hkv
        have : kv.1 ∈ t.map Prod.fst := List.mem_map_of_mem Prod.fst hkv
        have : p.1 ≠ kv.1 := fun hh => hpfst (hh ▸ this)
        omega
      · refine ih _ hmem' hnd' ?_
        intro e he2 kv hkv
        by_cases hc : ug.contains p.2 = true
        · rw [if_pos hc] at he2
          rcases mem_dictSet_elim m _ _ e he2 with hem | hekv
          · exact hm e hem kv (List.mem_cons_of_mem p hkv)
          · have : kv.1 ∈ t.map Prod.fst := List.mem_map_of_mem Prod.fst hkv
            have hne : p.1 ≠ kv.1 := fun hh => hpfst (hh ▸ this)
            rw [hekv]
            simp only []
            omega
        · rw [if_neg hc] at he2
          exact hm e he2 kv (List.mem_cons_of_mem p hkv)

theorem updateFirstCmap_mem (p : CmapTable → Bool) (g : CmapTable → CmapTable)
    (l : List CmapTable) (st : CmapTable) (h : st ∈ l) :
    st ∈ updateFirstCmap p g l ∨ g st ∈ updateFirstCmap p g l := by
  induction l with
  | nil => cases h
  | cons t rest ih =>
      unfold updateFirstCmap
      rcases List.mem_cons.mp h with rfl | h'
      · by_cases hp : p st = true
        · rw [if_pos hp]; exact Or.inr (List.mem_cons_self _ _)
        · rw [if_neg hp]; exact Or.inl (List.mem_cons_self _ _)
      · by_cases hp : p t = true
        · rw [if_pos hp]; exact Or.inl (List.mem_cons_of_mem _ h')
        · rw [if_neg hp]
          rcases ih h' with hl | hr
          · exact Or.inl (List.mem_cons_of_mem _ hl)
          · exact Or.inr (List.mem_cons_of_mem _ hr)

theorem updateFirstCmap_first (p : CmapTable → Bool) (g : CmapTable → CmapTable)
    (l : List CmapTable) (h : ∃ st ∈ l, p st = true) :
    ∃ st, st ∈ l ∧ p st = true ∧ g st ∈ updateFirstCmap p g l := by
  induction l with
  | nil => rcases h with ⟨st, hst, _⟩; cases hst
  | cons t rest ih =>
      unfold updateFirstCmap
      by_cases hp : p t = true
      · rw [if_pos hp]
        exact ⟨t, List.mem_cons_self t rest, hp, List.mem_cons_self _ _⟩
      · rw [if_neg hp]
        have h' : ∃ st ∈ rest, p st = true := by
          rcases h with ⟨st, hst, hpst⟩
          rcases List.mem_cons.mp hst with rfl | hst'
          · exact absurd hpst hp
          · exact ⟨st, hst', hpst⟩
        rcases ih h' with ⟨st, hst, hpst, hg⟩
        exact ⟨st, List.mem_cons_of_mem t hst, hpst,
          List.mem_cons_of_mem t hg⟩

theorem findUcs2_mem (l : List CmapTable) (t : CmapTable)
    (h : findUcs2 l = some t) : t ∈ l := by
  unfold findUcs2 at h
  cases h1 : getcmap l 3 1 with
  | some t1 => rw [h1] at h; cases h; exact List.mem_of_find?_eq_some h1
  | none =>
      rw [h1] at h
      cases h2 : getcmap l 0 3 with
      | some t2 => rw [h2] at h; cases h; exact List.mem_of_find?_eq_some h2
      | none =>
          rw [h2] at h
          exact List.mem_of_find?_eq_some h

theorem puaCmap1_keys (f : Font) (hp : cmapKeysBelowPUA f) :
    ∀ st ∈ puaCmap1 f, ∀ e ∈ st.cmap, e.1 < 0xF0000 := by
  unfold puaCmap1
  split
  · exact hp
  · intro st hst
    rcases List.mem_append.mp hst with hst' | hst'
    · exact hp st hst'
    · rw [List.mem_singleton.mp hst']
      intro e he
      show e.1 < 0xF0000
      have : e ∈ puaSeeded f := he
      unfold puaSeeded at this
      revert this
      cases hf : findUcs2 f.cmap with
      | some t => exact fun hm => hp t (findUcs2_mem f.cmap t hf) e hm
      | none => intro hm; cases hm

theorem puaCmap1_has310 (f : Font) :
    ∃ st ∈ puaCmap1 f, (st.platformID == 3 && st.platEncID == 10) = true := by
  unfold puaCmap1
  split
  · next hsome =>
      obtain ⟨t, ht⟩ := Option.isSome_iff_exists.mp hsome
      unfold getcmap at ht
      have h1 := List.mem_of_find?_eq_some ht
      have h2 := List.find?_some ht
      exact ⟨t, h1, h2⟩
  · refine ⟨_, List.mem_append_right _ (List.mem_singleton.mpr rfl), rfl⟩

theorem puaCmap_encodes (f : Font) (hp : cmapKeysBelowPUA f)
    (g : String) (hgo : g ∈ f.glyphOrder) :
    (puaCmap f).any (fun st => st.cmap.any (fun e => e.2 == g)) = true := by
  have hkeys1 := puaCmap1_keys f hp
  rw [List.any_eq_true]
  by_cases hgu : g ∈ get_unencoded_glyphs f
  · obtain ⟨i, hi⟩ := List.mem_iff_getElem?.mp hgo
    have hie : (i, g) ∈ f.glyphOrder.enum := List.mem_enum_iff_getElem?.mpr hi
    obtain ⟨st, hst, hpst, hgst⟩ :=
      updateFirstCmap_first (fun t => t.platformID == 3 && t.platEncID == 10)
        (fun t =>
          { t with cmap :=
              puaFold (get_unencoded_glyphs f) f.glyphOrder.enum t.cmap })
        (puaCmap1 f) (puaCmap1_has310 f)
    refine ⟨_, hgst, ?_⟩
    rw [List.any_eq_true]
    refine ⟨(0xF0000 + i, g), ?_, by simp⟩
    show (0xF0000 + i, g) ∈
      puaFold (get_unencoded_glyphs f) f.glyphOrder.enum st.cmap
    refine mem_puaFold_insert _ _ _ i g hie ?_ ?_ ?_
    · exact List.elem_iff.mpr hgu
    · rw [List.enum_map_fst]; exact List.nodup_range _
    · intro e hem kv hkv
      have := hkeys1 st hst e hem
      omega
  · have hpred : (f.cmap.any (fun st => st.cmap.any (fun e => e.2 == g))) = true := by
      by_cases hany : (f.cmap.any (fun st => st.cmap.any (fun e => e.2 == g))) = true
      · exact hany
      · have hfalse : (f.cmap.any (fun st => st.cmap.any (fun e => e.2 == g))) = false := by
          revert hany
          cases f.cmap.any (fun st => st.cmap.any (fun e => e.2 == g)) <;> simp
        exact absurd
          (List.mem_filter.mpr ⟨hgo, by simp [hfalse]⟩) hgu
    obtain ⟨st, hst, hin⟩ := List.any_eq_true.mp hpred
    have hst1 : st ∈ puaCmap1 f := by
      unfold puaCmap1
      split
      · exact hst
      · exact List.mem_append_left _ hst
    rcases updateFirstCmap_mem (fun t => t.platformID == 3 && t.platEncID == 10)
        (fun t =>
          { t with cmap :=
              puaFold (get_unencoded_glyphs f) f.glyphOrder.enum t.cmap })
        (puaCmap1 f) st hst1 with hin2 | hin2
    · exact ⟨st, hin2, hin⟩
    · refine ⟨_, hin2, ?_⟩
      rw [List.any_eq_true] at hin ⊢
      obtain ⟨e, hem, heg⟩ := hin
      refine ⟨e, ?_, heg⟩
      show e ∈ puaFold (get_unencoded_glyphs f) f.glyphOrder.enum st.cmap
      refine mem_puaFold_of_no_collision _ _ _ _ hem ?_
      intro kv hkv
      have := hkeys1 st hst1 e hem
      omega

theorem fix_pua_idem (f : Font) (hp : cmapKeysBelowPUA f) :
    (fix_pua (fix_pua f).1).2 = false := by
  by_cases hu : (get_unencoded_glyphs f).isEmpty = true
  · have h1 : fix_pua f = (f, false) := by
      unfold fix_pua
      rw [if_pos hu]
    rw [h1]
    show (fix_pua f).2 = false
    rw [h1]
  · have hfix : fix_pua f = ({ f with cmap := puaCmap f }, true) := by
      unfold fix_pua
      rw [if_neg hu]
    have hune : get_unencoded_glyphs ({ f with cmap := puaCmap f } : Font) = [] := by
      unfold get_unencoded_glyphs
      rw [List.filter_eq_nil_iff]
      intro g hgo
      have hg' : g ∈ f.glyphOrder := hgo
      have := puaCmap_encodes f hp g hg'
      simp [this]
    rw [hfix]
    show (fix_pua { f with cmap := puaCmap f }).2 = false
    unfold fix_pua
    dsimp only
    rw [hune]
    rfl

/-- Claim C1 (corrected, as stated): the name-pruning rules are not
idempotent on every font: on a font carrying two identical Macintosh
records for nameID 7, each call removes only one, so the second call also
reports a change. -/
theorem drop_mac_names_not_idempotent :
    (drop_mac_names dupMacFont).2 = true ∧
      (drop_mac_names (drop_mac_names dupMacFont).1).2 = true := by
  constructor
  · decide
  · decide

/-- Claim C1 (amended): every single-font fix rule reports no change on a
second application — unconditionally for table pruning (whose second pass
removes nothing), fsType, fsSelection, macStyle, weight class, italic angle
and fixed-pitch detection (whenever the first application returns), and for
the two name-pruning rules and the PUA remap on fonts carrying at most one
Macintosh record per nameID and no cmap entries at PUA-A codepoints. -/
theorem fix_rules_idempotent (f : Font)
    (hdup : noDupMacNames f.name) (hpua : cmapKeysBelowPUA f) :
    (∀ fontTables tables,
        remove_tables (remove_tables fontTables tables) tables =
          remove_tables fontTables tables) ∧
      (fix_fs_type (fix_fs_type f).1).2 = false ∧
      (fix_fs_selection (fix_fs_selection f).1).2 = false ∧
      (fix_mac_style (fix_mac_style f).1).2 = false ∧
      (∀ f' c, fix_weight_class f = .ok (f', c) →
        fix_weight_class f' = .ok (f', false)) ∧
      (fix_italic_angle (fix_italic_angle f).1).2 = false ∧
      (∀ f' c, fix_isFixedPitch f = .ok (f', c) →
        fix_isFixedPitch f' = .ok (f', false)) ∧
      (drop_superfluous_mac_names (drop_superfluous_mac_names f).1).2 = false ∧
      (drop_mac_names (drop_mac_names f).1).2 = false ∧
      (fix_pua (fix_pua f).1).2 = false :=
  ⟨fun fontTables tables => remove_tables_idem fontTables tables,
   fix_fs_type_idem f, fix_fs_selection_idem f, fix_mac_style_idem f,
   fun f' c h => fix_weight_class_idem f f' c h, fix_italic_angle_idem f,
   fun f' c h => fix_isFixedPitch_idem f f' c h,
   drop_superfluous_mac_names_idem f hdup, drop_mac_names_idem f hdup,
   fix_pua_idem f hpua⟩

/-- Witness for C1: the idempotence conjuncts applied at a concrete font
satisfying both side conditions. -/
theorem fix_rules_idempotent_witness :
    (fix_fs_type (fix_fs_type pruneFont).1).2 = false ∧
      (fix_fs_selection (fix_fs_selection pruneFont).1).2 = false ∧
      (drop_mac_names (drop_mac_names pruneFont).1).2 = false ∧
      (fix_pua (fix_pua pruneFont).1).2 = false := by
  have hdup : noDupMacNames pruneFont.name := by
    intro n
    show List.countP (macKey n)
      [⟨1, 1, 0, 0, "Fam"⟩, ⟨2, 1, 0, 0, "Reg"⟩, ⟨15, 1, 0, 0, "Sample"⟩,
       ⟨19, 1, 0, 0, "Sample2"⟩, ⟨1, 3, 1, 1033, "Fam"⟩, ⟨300, 1, 0, 0, "hi"⟩,
       ⟨7, 1, 0, 7, "lang"⟩, ⟨7, 1, 1, 0, "enc"⟩] ≤ 1
    simp only [List.countP_cons, List.countP_nil, macKey]
    by_cases h1 : n = 1 <;> by_cases h2 : n = 2 <;> by_cases h15 : n = 15 <;>
      by_cases h19 : n = 19 <;> by_cases h300 : n = 300 <;>
        simp_all <;> split_ifs <;> omega
  have hpua : cmapKeysBelowPUA pruneFont := by
    intro st hst
    exact absurd hst (List.not_mem_nil st)
  have h := fix_rules_idempotent pruneFont hdup hpua
  exact ⟨h.2.1, h.2.2.1, h.2.2.2.2.2.2.2.2.1, h.2.2.2.2.2.2.2.2.2⟩
